import Mathlib

/-!
Verification of the MCP server configuration resolver of
`src/test_mcp_server.py` (the robust parser: `_expand_string_variables`,
`_expand_with_env_vars`, `_expand_env`, `validate_mcp_servers_structure`,
`validate_server_params`, `validate_server_type_and_connection`,
`validate_optional_fields`, `parse_mcp_servers_json`, `build_stdio_server`).

The JSON tree produced by `json.loads` is embedded as the mutual inductive
`JValue` / `JArr` / `JObj` (objects are ordered key-value lists, which is
what Python dicts built from JSON give; `json.loads` output never has
duplicate keys).  The Document Loader itself (`json.loads`) is not
modelled: all statements start from the parsed tree.  The process
environment `os.environ` is modelled as an explicit association list
passed to the resolver.
-/

/-- The chars coded by 123 and 125 are the opening and closing curly braces. -/
def lbrace : Char := Char.ofNat 123

/-- Closing curly brace. -/
def rbrace : Char := Char.ofNat 125

mutual
/-- A JSON value as produced by `json.loads`: Python `None`, `bool`, number
(numbers are only carried around by the resolver, never computed with, so
`Int` suffices), `str`, `list`, `dict`. -/
inductive JValue : Type where
  | null : JValue
  | bool (b : Bool) : JValue
  | num (n : Int) : JValue
  | str (s : String) : JValue
  | arr (items : JArr) : JValue
  | obj (fields : JObj) : JValue
/-- A JSON array (Python list). -/
inductive JArr : Type where
  | nil : JArr
  | cons (head : JValue) (tail : JArr) : JArr
/-- A JSON object (Python dict): ordered list of key-value pairs.  Keys of
a dict coming from `json.loads` are distinct strings. -/
inductive JObj : Type where
  | nil : JObj
  | cons (key : String) (value : JValue) (tail : JObj) : JObj
end

/-- Lookup of a key in an object, modelling Python `d.get(k)` /
`d[k]` on the duplicate-free dicts produced by `json.loads`. -/
def JObj.get : JObj → String → Option JValue
  | .nil, _ => none
  | .cons k v t, name => if k = name then some v else JObj.get t name

/-- Membership of a key, modelling Python `k in d`. -/
def JObj.hasKey : JObj → String → Bool
  | .nil, _ => false
  | .cons k _ t, name => if k = name then true else JObj.hasKey t name

/-- Keys of an object, in order. -/
def JObj.keys : JObj → List String
  | .nil => []
  | .cons k _ t => k :: JObj.keys t

/-- Number of entries of an object. -/
def JObj.size : JObj → Nat
  | .nil => 0
  | .cons _ _ t => JObj.size t + 1

/-- Concatenation of two objects. -/
def JObj.append : JObj → JObj → JObj
  | .nil, o => o
  | .cons k v t, o => .cons k v (JObj.append t o)

mutual
/-- Structural equality of JSON values, modelling Python `==` on the values
the resolver compares (it only ever compares a dict with an equally-keyed,
equally-ordered dict obtained from it by value rewriting, where Python
`==` coincides with structural equality). -/
def beqV : JValue → JValue → Bool
  | .null, .null => true
  | .bool a, .bool b => a == b
  | .num a, .num b => a == b
  | .str a, .str b => a == b
  | .arr a, .arr b => beqA a b
  | .obj a, .obj b => beqO a b
  | _, _ => false
/-- Structural equality of JSON arrays. -/
def beqA : JArr → JArr → Bool
  | .nil, .nil => true
  | .cons a as, .cons b bs => beqV a b && beqA as bs
  | _, _ => false
/-- Structural equality of JSON objects. -/
def beqO : JObj → JObj → Bool
  | .nil, .nil => true
  | .cons k a as, .cons l b bs => k == l && beqV a b && beqO as bs
  | _, _ => false
end

/-- Python truthiness `bool(v)` of a JSON value (used by the source in
`if server_type and ...` and `if params.get("args"):`). -/
def jTruthy : JValue → Bool
  | .null => false
  | .bool b => b
  | .num n => n != 0
  | .str s => s != ""
  | .arr .nil => false
  | .arr (.cons _ _) => true
  | .obj .nil => false
  | .obj (.cons _ _ _) => true

/-- Python `isinstance(v, list)`. -/
def isArr : JValue → Bool
  | .arr _ => true
  | _ => false

/-- Python `isinstance(v, dict)`. -/
def isObj : JValue → Bool
  | .obj _ => true
  | _ => false

/-- Python `isinstance(v, str)`. -/
def isStr : JValue → Bool
  | .str _ => true
  | _ => false

/-- Python `v is None`. -/
def isNull : JValue → Bool
  | .null => true
  | _ => false

/-!
String scanners.

`_expand_string_variables` substitutes with Python regex
`re.sub` over the pattern  `\$\x7b([^\x7d]+)\x7d|\$([A-Za-z_][A-Za-z0-9_]*)`
(a braced token with a non-empty brace-free name, or an unbraced
identifier token), looking names up in a `dict[str, str]` and keeping
the whole token verbatim when the name is absent.

`os.path.expandvars` (CPython `posixpath.expandvars`, used by
`_expand_env` on plain strings) scans with the pattern
`\$(\w+|\x7b[^\x7d]*\x7d)` under `re.ASCII`
(so `\w` is `[A-Za-z0-9_]`, and an empty braced name is allowed),
looking names up in `os.environ`, keeping the token verbatim on a missing
name, and never rescanning substituted values.

Both are embedded as left-to-right character scanners.  Since a regex
match always starts at a `$`, `re.sub`'s position-by-position scan is the
same as: at each `$` try to read a token; on failure emit the `$` and
rescan from the next character.  Substituted values are emitted without
rescanning, exactly as `re.sub` and `expandvars` do.  The scanners use a
`Nat` fuel so that they are structurally recursive; one unit of fuel is
spent per emitted or substituted token while at least one input character
is consumed, so fuel equal to the input length (what the wrappers pass)
is never exhausted. -/

/-- Reading `[^\x7d]*\x7d`: split a character list at the first closing
brace, returning the prefix before it and the suffix after it, or `none`
if there is no closing brace. -/
def splitAtBrace : List Char → Option (List Char × List Char)
  | [] => none
  | c :: cs =>
    if c = rbrace then some ([], cs)
    else match splitAtBrace cs with
      | some (nm, rest) => some (c :: nm, rest)
      | none => none

/-- First char of an unbraced `[A-Za-z_][A-Za-z0-9_]*` token. -/
def isIdentStart (c : Char) : Bool := c.isAlpha || c = '_'

/-- Continuation chars of an identifier token; also `\w` under `re.ASCII`. -/
def isWordChar (c : Char) : Bool := c.isAlphanum || c = '_'

/-- Maximal run of characters satisfying `p`, and the remainder. -/
def takeRun (p : Char → Bool) : List Char → List Char × List Char
  | [] => ([], [])
  | c :: cs =>
    if p c then
      let r := takeRun p cs
      (c :: r.1, r.2)
    else ([], c :: cs)

/-- Lookup in a `dict[str, str]`, modelling `variables.get(name)` and
`os.environ[name]` (with `KeyError` as `none`). -/
def getVar : List (String × String) → String → Option String
  | [], _ => none
  | (k, v) :: rest, name => if k = name then some v else getVar rest name

/-- Scanner of `_expand_string_variables`: substitute `$\x7bNAME\x7d`
(any non-empty brace-free NAME) and `$NAME` (identifier NAME) tokens from
`vars`, keeping unmatched text and tokens with unknown names verbatim. -/
def expandChars (vars : List (String × String)) : Nat → List Char → List Char
  | 0, l => l
  | _ + 1, [] => []
  | fuel + 1, c :: rest =>
    if c = '$' then
      match rest with
      | d :: cs =>
        if d = lbrace then
          match splitAtBrace cs with
          | some (nm, after) =>
            if nm.isEmpty then c :: expandChars vars fuel rest
            else match getVar vars (String.mk nm) with
              | some v => v.data ++ expandChars vars fuel after
              | none => c :: d :: (nm ++ rbrace :: expandChars vars fuel after)
          | none => c :: expandChars vars fuel rest
        else if isIdentStart d then
          let r := takeRun isWordChar cs
          match getVar vars (String.mk (d :: r.1)) with
          | some v => v.data ++ expandChars vars fuel r.2
          | none => c :: d :: (r.1 ++ expandChars vars fuel r.2)
        else c :: expandChars vars fuel rest
      | [] => [c]
    else c :: expandChars vars fuel rest

/-- The source's `_expand_string_variables(text, variables)`. -/
def expand_string_variables (text : String) (vars : List (String × String)) : String :=
  String.mk (expandChars vars text.data.length text.data)

/-- Scanner of `os.path.expandvars`: substitute `$NAME` (`\w+` NAME) and
`$\x7bNAME\x7d` (any brace-free NAME, possibly empty) tokens from the
process environment, keeping unmatched text and unknown names verbatim. -/
def expandVarsChars (env : List (String × String)) : Nat → List Char → List Char
  | 0, l => l
  | _ + 1, [] => []
  | fuel + 1, c :: rest =>
    if c = '$' then
      match rest with
      | d :: cs =>
        if d = lbrace then
          match splitAtBrace cs with
          | some (nm, after) =>
            match getVar env (String.mk nm) with
            | some v => v.data ++ expandVarsChars env fuel after
            | none => c :: d :: (nm ++ rbrace :: expandVarsChars env fuel after)
          | none => c :: expandVarsChars env fuel rest
        else if isWordChar d then
          let r := takeRun isWordChar cs
          match getVar env (String.mk (d :: r.1)) with
          | some v => v.data ++ expandVarsChars env fuel r.2
          | none => c :: d :: (r.1 ++ expandVarsChars env fuel r.2)
        else c :: expandVarsChars env fuel rest
      | [] => [c]
    else c :: expandVarsChars env fuel rest

/-- Python `os.path.expandvars(text)` over the modelled process
environment `env`. -/
def expandvars (env : List (String × String)) (text : String) : String :=
  String.mk (expandVarsChars env text.data.length text.data)

/-- Quick sanity examples for the scanners (mirroring the docstring
example and the regex edge cases). -/
example : expand_string_variables "$\x7bA\x7d/x" [("A", "1")] = "1/x" := rfl
example : expand_string_variables "$A/x" [("A", "1")] = "1/x" := rfl
example : expand_string_variables "$\x7bA" [("A", "1")] = "$\x7bA" := rfl
example : expand_string_variables "$\x7b\x7d$A" [("A", "1")] = "$\x7b\x7d1" := rfl
example : expand_string_variables "$\x7bB\x7d" [("A", "1")] = "$\x7bB\x7d" := rfl
example : expandvars [("HOME", "/root")] "$\x7bHOME\x7d/x" = "/root/x" := rfl
example : expandvars [("HOME", "/root")] "$HOME/x" = "/root/x" := rfl
example : expandvars [] "$\x7bHOME\x7d/x" = "$\x7bHOME\x7d/x" := rfl
example : expandvars [("1x", "v")] "$1x" = "v" := rfl

mutual
/-- The source's `_expand_with_env_vars(obj, env_vars)`: expand variable
tokens in every string leaf via `_expand_string_variables`, recursing
through lists and dicts, and returning every other scalar unchanged.
(The source annotates `env_vars : dict[str, str]`.) -/
def expand_with_env_vars (vars : List (String × String)) : JValue → JValue
  | .null => .null
  | .bool b => .bool b
  | .num n => .num n
  | .str s => .str (expand_string_variables s vars)
  | .arr items => .arr (expandWithA vars items)
  | .obj fields => .obj (expandWithO vars fields)
/-- List case of `_expand_with_env_vars`. -/
def expandWithA (vars : List (String × String)) : JArr → JArr
  | .nil => .nil
  | .cons h t => .cons (expand_with_env_vars vars h) (expandWithA vars t)
/-- Dict case of `_expand_with_env_vars` (keys kept, values expanded). -/
def expandWithO (vars : List (String × String)) : JObj → JObj
  | .nil => .nil
  | .cons k v t => .cons k (expand_with_env_vars vars v) (expandWithO vars t)
end

/-- String-valued entries of a dict, as the `dict[str, str]` variable
source the annotations of `_expand_string_variables` and
`_expand_with_env_vars` declare.  On inputs where an `env` dict holds a
non-string value that is actually referenced by a token, CPython's
`re.sub` raises `TypeError`, while the total model built on this
projection keeps the token; the faithful fallible model `expand_envE`
below reproduces the `TypeError`, and `expand_envE_ok` proves the two
models agree on every input where the code raises nothing. -/
def stringPairs : JObj → List (String × String)
  | .nil => []
  | .cons k (.str s) t => (k, s) :: stringPairs t
  | .cons _ _ t => stringPairs t

/-- One pass of step 3 of `_expand_env`:
`_expand_with_env_vars(resolved_env, resolved_env)`. -/
def envStep (e : JObj) : JObj := expandWithO (stringPairs e) e

/-- The bounded fixed-point loop of `_expand_env` step 3:
`for _ in range(10): prev = dict(e); e = _expand_with_env_vars(e, e);
if e == prev: break`. -/
def envFixpoint : Nat → JObj → JObj
  | 0, e => e
  | n + 1, e =>
    let e' := envStep e
    if beqO e' e then e' else envFixpoint n e'

/-- Step 4 of `_expand_env`: rebuild the dict, replacing the `env` field
by the resolved env and expanding every other field with the resolved
env as variable source. -/
def finalizeFields (resolved : JObj) : JObj → JObj
  | .nil => .nil
  | .cons k v t =>
    if k = "env" then .cons k (.obj resolved) (finalizeFields resolved t)
    else .cons k (expand_with_env_vars (stringPairs resolved) v) (finalizeFields resolved t)

mutual
/-- The source's `_expand_env(obj)` with the process environment passed
explicitly.  Strings get `os.path.expandvars`; lists recurse; non-dict
scalars pass through; a dict is first expanded field-wise (step 1), then,
if it has a dict-valued `env` field, that field is resolved by the
10-pass bounded fixed point and substituted into the other fields
(steps 3 and 4). -/
def expand_env (osEnv : List (String × String)) : JValue → JValue
  | .null => .null
  | .bool b => .bool b
  | .num n => .num n
  | .str s => .str (expandvars osEnv s)
  | .arr items => .arr (expandEnvA osEnv items)
  | .obj fields =>
    let expanded := expandEnvO osEnv fields
    match expanded.get "env" with
    | some (.obj envFields) => .obj (finalizeFields (envFixpoint 10 envFields) expanded)
    | _ => .obj expanded
/-- List case of `_expand_env`. -/
def expandEnvA (osEnv : List (String × String)) : JArr → JArr
  | .nil => .nil
  | .cons h t => .cons (expand_env osEnv h) (expandEnvA osEnv t)
/-- Step 1 of the dict case of `_expand_env`: every field recursively
expanded. -/
def expandEnvO (osEnv : List (String × String)) : JObj → JObj
  | .nil => .nil
  | .cons k v t => .cons k (expand_env osEnv v) (expandEnvO osEnv t)
end

/-- Docstring example of `_expand_env`: the `env` field's variables are
cross-referenced by the other fields. -/
example :
    expand_env []
      (.obj (.cons "env" (.obj (.cons "PROJECT_ROOT" (.str "/home/user/project") .nil))
        (.cons "cwd" (.str "$\x7bPROJECT_ROOT\x7d/scripts") .nil)))
    = .obj (.cons "env" (.obj (.cons "PROJECT_ROOT" (.str "/home/user/project") .nil))
        (.cons "cwd" (.str "/home/user/project/scripts") .nil)) := rfl

/-- Error taxonomy of the spec, tagging the `ValueError` raise sites of
the source: `ParseError` for malformed JSON (Document Loader, not
modelled further), `SchemaError` for structural violations, `ConfigError`
for the semantically-empty result.  Messages are the source's message
strings (the `unknown type` message drops the interpolated value and the
hash-order-dependent rendering of the allowed set). -/
inductive MCPError : Type where
  | parseError (msg : String) : MCPError
  | schemaError (msg : String) : MCPError
  | configError (msg : String) : MCPError
deriving DecidableEq

/-- The source's `http_types` set (kept as a list; membership is what is
used). -/
def http_types : List String := ["sse", "stream", "http", "streamable-http"]

/-- The source's `allowed_types = {"stdio"} | http_types`. -/
def allowed_types : List String := "stdio" :: http_types

/-- Python truthiness of `params.get(k)` (missing key is `None`, falsy). -/
def optTruthy : Option JValue → Bool
  | none => false
  | some v => jTruthy v

/-- Python `v == s` between a fetched value (or `None`) and a string
literal: true exactly for the equal string. -/
def optIsStr (t : Option JValue) (s : String) : Bool :=
  match t with
  | some (.str s') => s' == s
  | _ => false

/-- Python `v in l` for a fetched value (or `None`) against a list of
strings: only an equal string is a member. -/
def optInStrList (t : Option JValue) (l : List String) : Bool :=
  match t with
  | some (.str s) => l.contains s
  | _ => false

/-- The source's `validate_mcp_servers_structure(root)`: the top level
must be a dict whose `mcpServers` value is a dict. -/
def validate_mcp_servers_structure (root : JValue) : Except MCPError JObj :=
  match root with
  | .obj fields =>
    match fields.get "mcpServers" with
    | some (.obj servers) => .ok servers
    | _ => .error (.schemaError "Top-level key \"mcpServers\" must be an object.")
  | _ => .error (.schemaError "Top-level key \"mcpServers\" must be an object.")

/-- The source's `validate_server_params(name, params)`: the name check
(`isinstance(name, str)`) is vacuous here because `JObj` keys are
strings, as are all keys of dicts produced by `json.loads`; the value
must be a dict. -/
def validate_server_params (name : String) (params : JValue) : Except MCPError JObj :=
  match params with
  | .obj fields => .ok fields
  | _ => .error (.schemaError ("Server \"" ++ name ++ "\" must be an object."))

/-- The source's `validate_server_type_and_connection(name, params)`,
returning `server_type` (`params.get("type")`) on success. -/
def validate_server_type_and_connection (name : String) (params : JObj) :
    Except MCPError (Option JValue) :=
  let server_type := params.get "type"
  if params.hasKey "command" then
    -- stdio branch: `args` may be omitted or None, otherwise must be a list
    let argsBad :=
      match params.get "args" with
      | some a => !isNull a && !isArr a
      | none => false
    if argsBad then
      .error (.schemaError ("Server \"" ++ name ++ "\": \"args\" must be a list."))
    else if optTruthy server_type && !optIsStr server_type "stdio" then
      .error (.schemaError ("Server \"" ++ name ++ "\": type must be \"stdio\" or omitted."))
    else if optTruthy server_type && !optInStrList server_type allowed_types then
      .error (.schemaError ("Server \"" ++ name ++ "\": unknown type."))
    else .ok server_type
  else if params.hasKey "url" then
    if !(match params.get "url" with | some (.str _) => true | _ => false) then
      .error (.schemaError ("Server \"" ++ name ++ "\": \"url\" must be a string."))
    else if !optInStrList server_type http_types then
      .error (.schemaError ("Server \"" ++ name ++ "\": url servers require type \"sse\" or \"stream\"/\"http\"/\"streamable-http\"."))
    else if optTruthy server_type && !optInStrList server_type allowed_types then
      .error (.schemaError ("Server \"" ++ name ++ "\": unknown type."))
    else .ok server_type
  else
    .error (.schemaError ("Server \"" ++ name ++ "\" needs \"command\" (stdio) or \"url\" (HTTP/SSE)."))

/-- The source's `validate_optional_fields(name, params)`: `headers` and
`env`, if present, must be dicts; `cwd`, if present and not None, must be
a string. -/
def validate_optional_fields (name : String) (params : JObj) : Except MCPError Unit :=
  if params.hasKey "headers" &&
      !(match params.get "headers" with | some v => isObj v | none => false) then
    .error (.schemaError ("Server \"" ++ name ++ "\": \"headers\" must be an object."))
  else if params.hasKey "env" &&
      !(match params.get "env" with | some v => isObj v | none => false) then
    .error (.schemaError ("Server \"" ++ name ++ "\": \"env\" must be an object."))
  else if params.hasKey "cwd" &&
      (match params.get "cwd" with | some v => !isNull v && !isStr v | none => false) then
    .error (.schemaError ("Server \"" ++ name ++ "\": \"cwd\" must be a string."))
  else .ok ()

/-- The source's skip test `params.get("enabled", True) is False`: true
exactly when the dict has an `enabled` key whose value is the literal
boolean `False`. -/
def isDisabledObj (params : JObj) : Bool :=
  match params.get "enabled" with
  | some (.bool false) => true
  | _ => false

/-- The skip test lifted to an entry value: a non-dict value is never
skipped (it errors in `validate_server_params` first). -/
def isDisabledV : JValue → Bool
  | .obj fields => isDisabledObj fields
  | _ => false

/-- Entries of the inner `mcpServers` map that are not skipped by the
`enabled` test, in input order. -/
def enabledEntries : JObj → JObj
  | .nil => .nil
  | .cons n v t =>
    if isDisabledV v then enabledEntries t else .cons n v (enabledEntries t)

/-- Every entry of the map is skipped by the `enabled` test (true for the
empty map). -/
def allDisabled : JObj → Bool
  | .nil => true
  | .cons _ v t => isDisabledV v && allDisabled t

/-- The per-entry loop body of `parse_mcp_servers_json`: validate each
entry in document order, skip entries whose `enabled` is literally
`False` (`params.get("enabled", True) is False`), and collect
`name -> _expand_env(params)` for the survivors; the first violation
aborts the whole resolution. -/
def processEntries (osEnv : List (String × String)) : JObj → Except MCPError JObj
  | .nil => .ok .nil
  | .cons name pv rest =>
    match validate_server_params name pv with
    | .error e => .error e
    | .ok params =>
      if isDisabledObj params then processEntries osEnv rest
      else
        match validate_server_type_and_connection name params with
        | .error e => .error e
        | .ok _ =>
          match validate_optional_fields name params with
          | .error e => .error e
          | .ok _ =>
            match processEntries osEnv rest with
            | .error e => .error e
            | .ok servers => .ok (.cons name (expand_env osEnv (.obj params)) servers)

/-- The source's `parse_mcp_servers_json(json_str)` from the parsed tree
on (the `json.loads` call of `load_json_configuration` is not modelled;
`root` is its output), with the process environment explicit. -/
def parse_mcp_servers (root : JValue) (osEnv : List (String × String)) :
    Except MCPError JObj :=
  match validate_mcp_servers_structure root with
  | .error e => .error e
  | .ok mcp_servers =>
    match processEntries osEnv mcp_servers with
    | .error e => .error e
    | .ok servers =>
      match servers with
      | .nil => .error (.configError "No enabled MCP servers found.")
      | _ => .ok servers

/-- The data the source's `build_stdio_server` passes to the external
`MCPServerStdio` constructor.  `command` is `params["command"]`
(an `Option` here; within the pipeline the key is present), the truthy
optional fields are included only when truthy, and the timeout is
`params.get("timeout", 30)`. -/
structure MCPServerStdio where
  name : String
  command : Option JValue
  args : Option JValue
  env : Option JValue
  cwd : Option JValue
  client_session_timeout_seconds : JValue

/-- A field of `stdio_params` included only `if params.get(k):`
(Python truthiness). -/
def truthyField (params : JObj) (k : String) : Option JValue :=
  match params.get k with
  | some v => if jTruthy v then some v else none
  | none => none

/-- The source's `build_stdio_server(name, params)`. -/
def build_stdio_server (name : String) (params : JObj) : MCPServerStdio :=
  { name := name
    command := params.get "command"
    args := truthyField params "args"
    env := truthyField params "env"
    cwd := truthyField params "cwd"
    client_session_timeout_seconds := (params.get "timeout").getD (JValue.num 30) }

/-- End-to-end sanity check on the repository's own inline document
(`PARAMS_JSON_STR`, with the two servers `playwright` and
`microsoft.docs.mcp`). -/
example :
    parse_mcp_servers
      (.obj (.cons "mcpServers"
        (.obj (.cons "playwright"
                (.obj (.cons "command" (.str "npx")
                  (.cons "args" (.arr (.cons (.str "-y")
                    (.cons (.str "@playwright/mcp@latest") .nil))) .nil)))
          (.cons "microsoft.docs.mcp"
                (.obj (.cons "type" (.str "stream")
                  (.cons "url" (.str "https://learn.microsoft.com/api/mcp") .nil)))
            .nil))) .nil)) []
    = .ok (.cons "playwright"
            (.obj (.cons "command" (.str "npx")
              (.cons "args" (.arr (.cons (.str "-y")
                (.cons (.str "@playwright/mcp@latest") .nil))) .nil)))
        (.cons "microsoft.docs.mcp"
            (.obj (.cons "type" (.str "stream")
              (.cons "url" (.str "https://learn.microsoft.com/api/mcp") .nil)))
          .nil)) := rfl

/-- A name matching the claim's pattern `[A-Za-z_][A-Za-z0-9_]*`. -/
def isIdentName (s : String) : Bool :=
  match s.data with
  | [] => false
  | c :: cs => isIdentStart c && cs.all isWordChar

/-- The structure of a JSON value with string leaves erased: used to state
that expansion only rewrites string leaves, keeping object keys (with
order), sequence lengths and non-string scalars intact. -/
inductive ShapeT : Type where
  | leafNull : ShapeT
  | leafBool (b : Bool) : ShapeT
  | leafNum (n : Int) : ShapeT
  | leafStr : ShapeT
  | arrS (items : List ShapeT) : ShapeT
  | objS (fields : List (String × ShapeT)) : ShapeT

mutual
/-- Shape of a value: identity on non-string scalars, erasure of string
contents, structural recursion through arrays and objects. -/
def shapeOf : JValue → ShapeT
  | .null => .leafNull
  | .bool b => .leafBool b
  | .num n => .leafNum n
  | .str _ => .leafStr
  | .arr items => .arrS (shapeOfA items)
  | .obj fields => .objS (shapeOfO fields)
/-- Shapes of the elements of an array. -/
def shapeOfA : JArr → List ShapeT
  | .nil => []
  | .cons h t => shapeOf h :: shapeOfA t
/-- Keys and shapes of the fields of an object. -/
def shapeOfO : JObj → List (String × ShapeT)
  | .nil => []
  | .cons k v t => (k, shapeOf v) :: shapeOfO t
end

/-- The keys of an object are pairwise distinct (true of every dict
produced by `json.loads`). -/
def keysUnique : JObj → Bool
  | .nil => true
  | .cons k _ t => !(t.hasKey k) && keysUnique t

mutual
/-- Every object nested in the value has pairwise distinct keys. -/
def noDupV : JValue → Bool
  | .null => true
  | .bool _ => true
  | .num _ => true
  | .str _ => true
  | .arr items => noDupA items
  | .obj fields => keysUnique fields && noDupO fields
/-- Array case of `noDupV`. -/
def noDupA : JArr → Bool
  | .nil => true
  | .cons h t => noDupV h && noDupA t
/-- Object-values case of `noDupV`. -/
def noDupO : JObj → Bool
  | .nil => true
  | .cons _ v t => noDupV v && noDupO t
end

/-- The exception `re.sub` raises when the replacement function returns a
non-string: `TypeError`.  `_expand_string_variables` returns the
looked-up dict value from `replace_var`, so a token referencing a name
whose value is not a string raises this. -/
inductive ExpandError : Type where
  | typeError : ExpandError
deriving DecidableEq

/-- Scanner of `_expand_string_variables` on its actual call sites inside
`_expand_env`, where `variables` is the raw `resolved_env` dict (values
are arbitrary JSON values, not only strings): a token whose name resolves
to a string substitutes it; a token whose name resolves to a non-string
raises `TypeError` (the first offending match aborts the whole `re.sub`,
so no partial result is observable); an unknown name keeps the token
verbatim. -/
def expandCharsJ (vars : JObj) : Nat → List Char → Except ExpandError (List Char)
  | 0, l => .ok l
  | _ + 1, [] => .ok []
  | fuel + 1, c :: rest =>
    if c = '$' then
      match rest with
      | d :: cs =>
        if d = lbrace then
          match splitAtBrace cs with
          | some (nm, after) =>
            if nm.isEmpty then
              match expandCharsJ vars fuel rest with
              | .ok r => .ok (c :: r)
              | .error e => .error e
            else
              match vars.get (String.mk nm) with
              | some (.str v) =>
                match expandCharsJ vars fuel after with
                | .ok r => .ok (v.data ++ r)
                | .error e => .error e
              | some _ => .error .typeError
              | none =>
                match expandCharsJ vars fuel after with
                | .ok r => .ok (c :: d :: (nm ++ rbrace :: r))
                | .error e => .error e
          | none =>
            match expandCharsJ vars fuel rest with
            | .ok r => .ok (c :: r)
            | .error e => .error e
        else if isIdentStart d then
          match vars.get (String.mk (d :: (takeRun isWordChar cs).1)) with
          | some (.str v) =>
            match expandCharsJ vars fuel (takeRun isWordChar cs).2 with
            | .ok r => .ok (v.data ++ r)
            | .error e => .error e
          | some _ => .error .typeError
          | none =>
            match expandCharsJ vars fuel (takeRun isWordChar cs).2 with
            | .ok r => .ok (c :: d :: ((takeRun isWordChar cs).1 ++ r))
            | .error e => .error e
        else
          match expandCharsJ vars fuel rest with
          | .ok r => .ok (c :: r)
          | .error e => .error e
      | [] => .ok [c]
    else
      match expandCharsJ vars fuel rest with
      | .ok r => .ok (c :: r)
      | .error e => .error e

/-- The source's `_expand_string_variables(text, variables)` with the raw
dict as variable source, raising `TypeError` exactly where CPython does. -/
def expand_string_variablesJ (text : String) (vars : JObj) : Except ExpandError String :=
  match expandCharsJ vars text.data.length text.data with
  | .ok l => .ok (String.mk l)
  | .error e => .error e

mutual
/-- The source's `_expand_with_env_vars(obj, env_vars)` on its actual
call sites, where `env_vars` is the raw `resolved_env` dict: the first
string leaf whose expansion raises `TypeError` aborts the whole
traversal, exactly as the exception propagates in Python. -/
def expand_with_env_varsE (vars : JObj) : JValue → Except ExpandError JValue
  | .null => .ok .null
  | .bool b => .ok (.bool b)
  | .num n => .ok (.num n)
  | .str s =>
    match expand_string_variablesJ s vars with
    | .ok s' => .ok (.str s')
    | .error e => .error e
  | .arr items =>
    match expandWithAE vars items with
    | .ok a => .ok (.arr a)
    | .error e => .error e
  | .obj fields =>
    match expandWithOE vars fields with
    | .ok o => .ok (.obj o)
    | .error e => .error e
/-- List case of the fallible `_expand_with_env_vars`. -/
def expandWithAE (vars : JObj) : JArr → Except ExpandError JArr
  | .nil => .ok .nil
  | .cons h t =>
    match expand_with_env_varsE vars h with
    | .error e => .error e
    | .ok h' =>
      match expandWithAE vars t with
      | .error e => .error e
      | .ok t' => .ok (.cons h' t')
/-- Dict case of the fallible `_expand_with_env_vars`. -/
def expandWithOE (vars : JObj) : JObj → Except ExpandError JObj
  | .nil => .ok .nil
  | .cons k v t =>
    match expand_with_env_varsE vars v with
    | .error e => .error e
    | .ok v' =>
      match expandWithOE vars t with
      | .error e => .error e
      | .ok t' => .ok (.cons k v' t')
end

/-- One pass of step 3 of `_expand_env` with the raw dict as variable
source: `_expand_with_env_vars(resolved_env, resolved_env)`. -/
def envStepE (e : JObj) : Except ExpandError JObj := expandWithOE e e

/-- The bounded fixed-point loop of `_expand_env` step 3, propagating a
`TypeError` raised inside a pass. -/
def envFixpointE : Nat → JObj → Except ExpandError JObj
  | 0, e => .ok e
  | n + 1, e =>
    match envStepE e with
    | .error err => .error err
    | .ok e' => if beqO e' e then .ok e' else envFixpointE n e'

/-- Step 4 of `_expand_env` with the raw resolved dict as variable
source, propagating a `TypeError` raised while expanding a field. -/
def finalizeFieldsE (resolved : JObj) : JObj → Except ExpandError JObj
  | .nil => .ok .nil
  | .cons k v t =>
    if k = "env" then
      match finalizeFieldsE resolved t with
      | .error e => .error e
      | .ok t' => .ok (.cons k (.obj resolved) t')
    else
      match expand_with_env_varsE resolved v with
      | .error e => .error e
      | .ok v' =>
        match finalizeFieldsE resolved t with
        | .error e => .error e
        | .ok t' => .ok (.cons k v' t')

mutual
/-- The source's `_expand_env(obj)` modelled faithfully with its error
behaviour: steps 3 and 4 use the raw `resolved_env` dict as variable
source and raise `TypeError` when a substituted token references a
non-string env value.  Step 1 (`os.path.expandvars`) never raises, since
`os.environ` maps strings to strings.  `expand_envE_ok` below proves this
model agrees with the total `expand_env` used in the parsing pipeline on
every input where no exception is raised. -/
def expand_envE (osEnv : List (String × String)) : JValue → Except ExpandError JValue
  | .null => .ok .null
  | .bool b => .ok (.bool b)
  | .num n => .ok (.num n)
  | .str s => .ok (.str (expandvars osEnv s))
  | .arr items =>
    match expandEnvAE osEnv items with
    | .ok a => .ok (.arr a)
    | .error e => .error e
  | .obj fields =>
    match expandEnvOE osEnv fields with
    | .error e => .error e
    | .ok expanded =>
      match expanded.get "env" with
      | some (.obj envFields) =>
        match envFixpointE 10 envFields with
        | .error e => .error e
        | .ok resolved =>
          match finalizeFieldsE resolved expanded with
          | .error e => .error e
          | .ok fin => .ok (.obj fin)
      | _ => .ok (.obj expanded)
/-- List case of the fallible `_expand_env`. -/
def expandEnvAE (osEnv : List (String × String)) : JArr → Except ExpandError JArr
  | .nil => .ok .nil
  | .cons h t =>
    match expand_envE osEnv h with
    | .error e => .error e
    | .ok h' =>
      match expandEnvAE osEnv t with
      | .error e => .error e
      | .ok t' => .ok (.cons h' t')
/-- Step-1 dict case of the fallible `_expand_env`. -/
def expandEnvOE (osEnv : List (String × String)) : JObj → Except ExpandError JObj
  | .nil => .ok .nil
  | .cons k v t =>
    match expand_envE osEnv v with
    | .error e => .error e
    | .ok v' =>
      match expandEnvOE osEnv t with
      | .error e => .error e
      | .ok t' => .ok (.cons k v' t')
end

/-- A non-string env value is harmless while no token references it, and
raises `TypeError` at the first referencing token. -/
example :
    expand_envE []
      (.obj (.cons "env" (.obj (.cons "N" (.num 5) .nil))
        (.cons "note" (.str "no token") .nil)))
    = .ok (.obj (.cons "env" (.obj (.cons "N" (.num 5) .nil))
        (.cons "note" (.str "no token") .nil))) := rfl
example :
    expand_envE []
      (.obj (.cons "env" (.obj (.cons "N" (.num 5) .nil))
        (.cons "cwd" (.str "$\x7bN\x7d") .nil)))
    = .error .typeError := rfl

/-!
Claims.
-/

/-- Claim C1, counterexample.  The claim says a descriptor containing both
`command` and `url` fails validation with a SchemaError; on the code, an
entry with both is classified by the `command` branch and resolves
successfully (the `url` co-presence is never checked). -/
theorem C1_counterexample :
    (JObj.cons "command" (.str "npx") (.cons "url" (.str "https://x") .nil)).hasKey
        "command" = true ∧
    (JObj.cons "command" (.str "npx") (.cons "url" (.str "https://x") .nil)).hasKey
        "url" = true ∧
    parse_mcp_servers
      (.obj (.cons "mcpServers"
        (.obj (.cons "both"
          (.obj (.cons "command" (.str "npx") (.cons "url" (.str "https://x") .nil)))
          .nil)) .nil)) []
    = .ok (.cons "both"
        (.obj (.cons "command" (.str "npx") (.cons "url" (.str "https://x") .nil)))
        .nil) :=
  ⟨rfl, rfl, rfl⟩

/-- Claim C1, amended.  An enabled descriptor with neither `command` nor
`url` fails with the SchemaError `needs "command" (stdio) or "url"
(HTTP/SSE)`; a descriptor containing both `command` and `url` is simply
classified as stdio (co-presence is not an error: with `args` and `type`
absent it validates successfully). -/
theorem C1_amended (name : String) (params : JObj) :
    (params.hasKey "command" = false → params.hasKey "url" = false →
      validate_server_type_and_connection name params =
        .error (.schemaError ("Server \"" ++ name ++
          "\" needs \"command\" (stdio) or \"url\" (HTTP/SSE)."))) ∧
    (params.hasKey "command" = true → params.get "args" = none →
      params.get "type" = none →
      validate_server_type_and_connection name params = .ok none) := by
  constructor
  · intro hc hu
    simp [validate_server_type_and_connection, hc, hu]
  · intro hc ha ht
    simp [validate_server_type_and_connection, hc, ha, ht, optTruthy]

/-- Claim C1, witness for the amended theorem at concrete inputs. -/
theorem C1_amended_witness :
    validate_server_type_and_connection "s" (.cons "cwd" (.str "/tmp") .nil) =
      .error (.schemaError "Server \"s\" needs \"command\" (stdio) or \"url\" (HTTP/SSE).") ∧
    validate_server_type_and_connection "s"
      (.cons "command" (.str "npx") (.cons "url" (.str "https://x") .nil)) = .ok none :=
  ⟨(C1_amended "s" (.cons "cwd" (.str "/tmp") .nil)).1 rfl rfl,
   (C1_amended "s" (.cons "command" (.str "npx") (.cons "url" (.str "https://x") .nil))).2
     rfl rfl rfl⟩

/-- Claim C3, counterexample.  The claim says every descriptor returned by
the resolver has a `timeout` field (defaulted to 30 when absent); on the
code, `parse_mcp_servers_json` never materialises a `timeout` field: a
valid input whose descriptor omits `timeout` resolves to a descriptor
still lacking the key. -/
theorem C3_counterexample :
    parse_mcp_servers
      (.obj (.cons "mcpServers"
        (.obj (.cons "s" (.obj (.cons "command" (.str "c") .nil)) .nil)) .nil)) []
    = .ok (.cons "s" (.obj (.cons "command" (.str "c") .nil)) .nil) ∧
    (JObj.cons "command" (.str "c") .nil).hasKey "timeout" = false ∧
    (JObj.cons "command" (.str "c") .nil).get "timeout" = none :=
  ⟨rfl, rfl, rfl⟩

/-- Claim C3, amended.  The resolver's output keeps `timeout` only when
the input gave one; the default of 30 is applied downstream by
`build_stdio_server`, whose `client_session_timeout_seconds` is
`params.get("timeout", 30)`: the descriptor's own value when present and
the number 30 when absent. -/
theorem C3_amended (name : String) (params : JObj) :
    (params.get "timeout" = none →
      (build_stdio_server name params).client_session_timeout_seconds = JValue.num 30) ∧
    (∀ t : JValue, params.get "timeout" = some t →
      (build_stdio_server name params).client_session_timeout_seconds = t) := by
  constructor
  · intro h
    simp [build_stdio_server, h]
  · intro t h
    simp [build_stdio_server, h]

/-- Claim C3, witness for the amended theorem at concrete inputs. -/
theorem C3_amended_witness :
    (build_stdio_server "s" (.cons "command" (.str "c") .nil)).client_session_timeout_seconds
      = JValue.num 30 ∧
    (build_stdio_server "s"
        (.cons "command" (.str "c") (.cons "timeout" (.num 7) .nil))).client_session_timeout_seconds
      = JValue.num 7 :=
  ⟨(C3_amended "s" (.cons "command" (.str "c") .nil)).1 rfl,
   (C3_amended "s" (.cons "command" (.str "c") (.cons "timeout" (.num 7) .nil))).2
     (JValue.num 7) rfl⟩

/-- Claim C5.  The internal cross-reference expansion of an `env` map is
the bounded loop `envFixpoint 10`, which always performs at most 10
passes of the substitution step (part 3, stated as: its result is some
`k ≤ 10`-fold iterate of the pass) and raises no error (it is a total
function).  On the cyclic example `X = $\x7bY\x7d, Y = $\x7bX\x7d` the
expansion stabilises with both values still literal unexpanded
placeholder text (part 1), and on the acyclic example
`ROOT = /base, SUB = $\x7bROOT\x7d/sub` it reaches the fixed point with
`SUB` fully resolved to `/base/sub` (part 2). -/
theorem C5_env_cycle_cap :
    expand_env []
      (.obj (.cons "env"
        (.obj (.cons "X" (.str "$\x7bY\x7d") (.cons "Y" (.str "$\x7bX\x7d") .nil))) .nil))
      = .obj (.cons "env"
        (.obj (.cons "X" (.str "$\x7bX\x7d") (.cons "Y" (.str "$\x7bY\x7d") .nil))) .nil) ∧
    expand_env []
      (.obj (.cons "env"
        (.obj (.cons "ROOT" (.str "/base")
          (.cons "SUB" (.str "$\x7bROOT\x7d/sub") .nil))) .nil))
      = .obj (.cons "env"
        (.obj (.cons "ROOT" (.str "/base")
          (.cons "SUB" (.str "/base/sub") .nil))) .nil) ∧
    ∀ e : JObj, ∃ k : Nat, k ≤ 10 ∧ envFixpoint 10 e = envStep^[k] e := by
  refine ⟨rfl, rfl, ?_⟩
  have general : ∀ (n : Nat) (e : JObj), ∃ k : Nat, k ≤ n ∧ envFixpoint n e = envStep^[k] e := by
    intro n
    induction n with
    | zero => intro e; exact ⟨0, Nat.le_refl 0, rfl⟩
    | succ m ih =>
      intro e
      by_cases h : beqO (envStep e) e = true
      · exact ⟨1, Nat.succ_le_succ (Nat.zero_le m), by simp [envFixpoint, h]⟩
      · obtain ⟨k, hk, he⟩ := ih (envStep e)
        refine ⟨k + 1, Nat.succ_le_succ hk, ?_⟩
        rw [Function.iterate_succ_apply]
        simpa [envFixpoint, h] using he
  exact general 10

/-- Claim C7, counterexample.  The claim says a stdio descriptor's `args`
must be a sequence all of whose elements are strings; on the code only
`isinstance(args, list)` is checked, so `args = [1]` (a list with a
non-string element) passes validation. -/
theorem C7_counterexample :
    validate_server_type_and_connection "s"
      (.cons "command" (.str "c")
        (.cons "args" (.arr (.cons (.num 1) .nil)) .nil)) = .ok none ∧
    (JObj.cons "command" (.str "c")
        (.cons "args" (.arr (.cons (.num 1) .nil)) .nil)).get "args"
      = some (.arr (.cons (.num 1) .nil)) ∧
    isStr (.num 1) = false :=
  ⟨rfl, rfl, rfl⟩

/-- Claim C7, amended.  For an enabled command-based descriptor with an
`args` field, validation fails with the SchemaError `"args" must be a
list` exactly when `args` is neither None nor a list; any list passes the
`args` check regardless of its elements' types (with `type` absent such a
descriptor validates successfully). -/
theorem C7_amended (name : String) (params : JObj) (a : JValue)
    (hc : params.hasKey "command" = true) (ha : params.get "args" = some a) :
    (isNull a = false → isArr a = false →
      validate_server_type_and_connection name params =
        .error (.schemaError ("Server \"" ++ name ++ "\": \"args\" must be a list."))) ∧
    (isArr a = true → params.get "type" = none →
      validate_server_type_and_connection name params = .ok none) := by
  constructor
  · intro h1 h2
    simp [validate_server_type_and_connection, hc, ha, h1, h2]
  · intro h1 ht
    simp [validate_server_type_and_connection, hc, ha, h1, ht, optTruthy]

/-- Claim C7, witness for the amended theorem at concrete inputs. -/
theorem C7_amended_witness :
    validate_server_type_and_connection "s"
      (.cons "command" (.str "c") (.cons "args" (.str "x") .nil)) =
      .error (.schemaError "Server \"s\": \"args\" must be a list.") ∧
    validate_server_type_and_connection "s"
      (.cons "command" (.str "c")
        (.cons "args" (.arr (.cons (.num 1) .nil)) .nil)) = .ok none :=
  ⟨(C7_amended "s" (.cons "command" (.str "c") (.cons "args" (.str "x") .nil))
      (.str "x") rfl rfl).1 rfl rfl,
   (C7_amended "s" (.cons "command" (.str "c")
        (.cons "args" (.arr (.cons (.num 1) .nil)) .nil))
      (.arr (.cons (.num 1) .nil)) rfl rfl).2 rfl rfl⟩

/-- Length of the key list is the size of the object. -/
theorem JObj.size_eq_keys_length : ∀ o : JObj, o.size = o.keys.length
  | .nil => rfl
  | .cons _ _ t => by simp [JObj.size, JObj.keys, JObj.size_eq_keys_length t]

/-- Key preservation of the entry loop: on success, the resolved map has
exactly the keys of the non-disabled input entries, in input order. -/
theorem processEntries_keys (osEnv : List (String × String)) :
    ∀ (m servers : JObj), processEntries osEnv m = Except.ok servers →
      servers.keys = (enabledEntries m).keys := by
  intro m
  match m with
  | .nil =>
    intro servers h
    simp only [processEntries] at h
    cases h
    rfl
  | .cons name pv rest =>
    intro servers h
    have ih := processEntries_keys osEnv rest
    simp only [processEntries] at h
    cases hv : validate_server_params name pv with
    | error e => simp only [hv] at h; cases h
    | ok params =>
      simp only [hv] at h
      have hpv : pv = .obj params := by
        cases pv <;> simp_all [validate_server_params]
      by_cases hd : isDisabledObj params = true
      · simp only [hd, if_true] at h
        have := ih servers h
        rw [this, hpv]
        simp [enabledEntries, isDisabledV, hd]
      · rw [if_neg hd] at h
        cases ht : validate_server_type_and_connection name params with
        | error e => simp only [ht] at h; cases h
        | ok st =>
          simp only [ht] at h
          cases ho : validate_optional_fields name params with
          | error e => simp only [ho] at h; cases h
          | ok u =>
            simp only [ho] at h
            cases hr : processEntries osEnv rest with
            | error e => simp only [hr] at h; cases h
            | ok tailServers =>
              simp only [hr, Except.ok.injEq] at h
              subst h
              rw [hpv]
              simp [enabledEntries, isDisabledV, hd, JObj.keys, ih tailServers hr]

/-- Claim C4.  For every document that passes structural validation and
resolves successfully, the resolved mapping has exactly one entry per
enabled entry of the input `mcpServers` map, with the keys in the same
relative order as the surviving entries appeared in the input (and hence
the same size). -/
theorem C4_order_and_size (root : JValue) (osEnv : List (String × String))
    (m servers : JObj)
    (h1 : validate_mcp_servers_structure root = Except.ok m)
    (h2 : parse_mcp_servers root osEnv = Except.ok servers) :
    servers.keys = (enabledEntries m).keys ∧
    servers.size = (enabledEntries m).size := by
  have hp : processEntries osEnv m = Except.ok servers := by
    simp only [parse_mcp_servers, h1] at h2
    cases hr : processEntries osEnv m with
    | error e => simp only [hr] at h2; cases h2
    | ok s =>
      simp only [hr] at h2
      cases s with
      | nil => simp at h2
      | cons k v t =>
        simp only [Except.ok.injEq] at h2
        rw [h2]
  have hk := processEntries_keys osEnv m servers hp
  refine ⟨hk, ?_⟩
  rw [JObj.size_eq_keys_length, JObj.size_eq_keys_length, hk]

/-- Claim C4, witness: a document with one enabled and one disabled entry,
the theorem applied at it. -/
theorem C4_order_and_size_witness :
    (JObj.cons "a" (.obj (.cons "command" (.str "c") .nil)) .nil).keys =
      (enabledEntries
        (JObj.cons "a" (.obj (.cons "command" (.str "c") .nil))
          (.cons "b" (.obj (.cons "enabled" (.bool false) .nil)) .nil))).keys ∧
    (JObj.cons "a" (.obj (.cons "command" (.str "c") .nil)) .nil).size =
      (enabledEntries
        (JObj.cons "a" (.obj (.cons "command" (.str "c") .nil))
          (.cons "b" (.obj (.cons "enabled" (.bool false) .nil)) .nil))).size :=
  C4_order_and_size
    (.obj (.cons "mcpServers"
      (.obj (.cons "a" (.obj (.cons "command" (.str "c") .nil))
        (.cons "b" (.obj (.cons "enabled" (.bool false) .nil)) .nil))) .nil))
    []
    (.cons "a" (.obj (.cons "command" (.str "c") .nil))
      (.cons "b" (.obj (.cons "enabled" (.bool false) .nil)) .nil))
    (.cons "a" (.obj (.cons "command" (.str "c") .nil)) .nil)
    rfl rfl

/-- Claim C6.  An entry whose descriptor dict has `enabled` literally
`false` is skipped before any kind-specific or optional-field check:
processing a map containing such an entry (anywhere, with arbitrary other
fields — in particular lacking both `command` and `url`) gives exactly
the result of processing the map without it, so the entry is excluded
from the result and can cause no validation failure. -/
theorem C6_disabled_skipped (osEnv : List (String × String)) :
    ∀ (l1 l2 : JObj) (name : String) (f : JObj), isDisabledObj f = true →
      processEntries osEnv (l1.append (.cons name (.obj f) l2)) =
        processEntries osEnv (l1.append l2) := by
  intro l1
  match l1 with
  | .nil =>
    intro l2 name f hf
    simp [JObj.append, processEntries, validate_server_params, hf]
  | .cons k v t =>
    intro l2 name f hf
    have ih := C6_disabled_skipped osEnv t l2 name f hf
    simp only [JObj.append, processEntries]
    cases hv : validate_server_params k v with
    | error e => rfl
    | ok params =>
      by_cases hd : isDisabledObj params = true
      · simp [hd, ih]
      · simp only [hd, if_false, Bool.false_eq_true]
        cases ht : validate_server_type_and_connection k params with
        | error e => rfl
        | ok st =>
          cases ho : validate_optional_fields k params with
          | error e => rfl
          | ok u => simp [ih]

/-- Claim C6, witness: a disabled entry lacking both `command` and `url`,
sitting between two enabled entries, is skipped without error. -/
theorem C6_disabled_skipped_witness :
    processEntries []
      ((JObj.cons "a" (.obj (.cons "command" (.str "c") .nil)) .nil).append
        (.cons "bad" (.obj (.cons "enabled" (.bool false) .nil))
          (.cons "z" (.obj (.cons "command" (.str "d") .nil)) .nil))) =
      processEntries []
        ((JObj.cons "a" (.obj (.cons "command" (.str "c") .nil)) .nil).append
          (.cons "z" (.obj (.cons "command" (.str "d") .nil)) .nil)) :=
  C6_disabled_skipped []
    (.cons "a" (.obj (.cons "command" (.str "c") .nil)) .nil)
    (.cons "z" (.obj (.cons "command" (.str "d") .nil)) .nil)
    "bad" (.cons "enabled" (.bool false) .nil) rfl

/-- An all-disabled map processes to the empty result. -/
theorem processEntries_allDisabled (osEnv : List (String × String)) :
    ∀ m : JObj, allDisabled m = true → processEntries osEnv m = Except.ok .nil := by
  intro m
  match m with
  | .nil => intro h; rfl
  | .cons name pv rest =>
    intro h
    simp only [allDisabled, Bool.and_eq_true] at h
    obtain ⟨h1, h2⟩ := h
    have ih := processEntries_allDisabled osEnv rest h2
    cases pv with
    | obj f =>
      simp only [isDisabledV] at h1
      simp [processEntries, validate_server_params, h1, ih]
    | null => simp [isDisabledV] at h1
    | bool b => simp [isDisabledV] at h1
    | num n => simp [isDisabledV] at h1
    | str s => simp [isDisabledV] at h1
    | arr a => simp [isDisabledV] at h1

/-- Claim C8.  A structurally valid document whose `mcpServers` map is
empty, or all of whose entries are disabled, makes the resolver fail with
the ConfigError `No enabled MCP servers found.` rather than return an
empty mapping. -/
theorem C8_no_enabled_servers (root : JValue) (osEnv : List (String × String))
    (m : JObj) (h1 : validate_mcp_servers_structure root = Except.ok m)
    (h2 : allDisabled m = true) :
    parse_mcp_servers root osEnv =
      Except.error (.configError "No enabled MCP servers found.") := by
  simp [parse_mcp_servers, h1, processEntries_allDisabled osEnv m h2]

/-- Claim C8, witness: the empty map and an all-disabled map, the theorem
applied at both. -/
theorem C8_no_enabled_servers_witness :
    parse_mcp_servers (.obj (.cons "mcpServers" (.obj .nil) .nil)) [] =
      Except.error (.configError "No enabled MCP servers found.") ∧
    parse_mcp_servers
      (.obj (.cons "mcpServers"
        (.obj (.cons "a" (.obj (.cons "enabled" (.bool false) .nil)) .nil)) .nil)) [] =
      Except.error (.configError "No enabled MCP servers found.") :=
  ⟨C8_no_enabled_servers (.obj (.cons "mcpServers" (.obj .nil) .nil)) [] .nil rfl rfl,
   C8_no_enabled_servers
     (.obj (.cons "mcpServers"
       (.obj (.cons "a" (.obj (.cons "enabled" (.bool false) .nil)) .nil)) .nil)) []
     (.cons "a" (.obj (.cons "enabled" (.bool false) .nil)) .nil) rfl rfl⟩

/-!
Lemmas about the two scanners, used for the variable-expansion claims.
-/

/-- Scanning the empty text yields the empty text, for every fuel. -/
theorem expandChars_nil (vars : List (String × String)) :
    ∀ fuel : Nat, expandChars vars fuel [] = [] := by
  intro fuel
  cases fuel <;> rfl

/-- Scanning the empty text yields the empty text, for every fuel. -/
theorem expandVarsChars_nil (env : List (String × String)) :
    ∀ fuel : Nat, expandVarsChars env fuel [] = [] := by
  intro fuel
  cases fuel <;> rfl

/-- Text without a dollar sign is left unchanged by the env-map scanner. -/
theorem expandChars_no_dollar (vars : List (String × String)) :
    ∀ (l : List Char) (fuel : Nat), (∀ c ∈ l, c ≠ '$') →
      expandChars vars fuel l = l := by
  intro l
  induction l with
  | nil => intro fuel _; cases fuel <;> rfl
  | cons c rest ih =>
    intro fuel h
    cases fuel with
    | zero => rfl
    | succ f =>
      have hc : ¬(c = '$') := h c (List.mem_cons_self c rest)
      simp only [expandChars, if_neg hc]
      rw [ih f (fun x hx => h x (List.mem_cons_of_mem c hx))]

/-- Text without a dollar sign is left unchanged by the process-env
scanner. -/
theorem expandVarsChars_no_dollar (env : List (String × String)) :
    ∀ (l : List Char) (fuel : Nat), (∀ c ∈ l, c ≠ '$') →
      expandVarsChars env fuel l = l := by
  intro l
  induction l with
  | nil => intro fuel _; cases fuel <;> rfl
  | cons c rest ih =>
    intro fuel h
    cases fuel with
    | zero => rfl
    | succ f =>
      have hc : ¬(c = '$') := h c (List.mem_cons_self c rest)
      simp only [expandVarsChars, if_neg hc]
      rw [ih f (fun x hx => h x (List.mem_cons_of_mem c hx))]

/-- Splitting a name followed by a closing brace. -/
theorem splitAtBrace_append (nm rest : List Char) (h : ∀ c ∈ nm, c ≠ rbrace) :
    splitAtBrace (nm ++ rbrace :: rest) = some (nm, rest) := by
  induction nm with
  | nil => simp [splitAtBrace]
  | cons c cs ih =>
    have hc : ¬(c = rbrace) := h c (List.mem_cons_self c cs)
    simp only [List.cons_append, splitAtBrace, if_neg hc, List.append_eq]
    rw [ih (fun x hx => h x (List.mem_cons_of_mem c hx))]

/-- A text without a closing brace does not split. -/
theorem splitAtBrace_none (l : List Char) (h : ∀ c ∈ l, c ≠ rbrace) :
    splitAtBrace l = none := by
  induction l with
  | nil => rfl
  | cons c cs ih =>
    have hc : ¬(c = rbrace) := h c (List.mem_cons_self c cs)
    simp only [splitAtBrace, if_neg hc]
    rw [ih (fun x hx => h x (List.mem_cons_of_mem c hx))]

/-- A run of matching characters is taken whole. -/
theorem takeRun_all (p : Char → Bool) (l : List Char) (h : ∀ c ∈ l, p c = true) :
    takeRun p l = (l, []) := by
  induction l with
  | nil => rfl
  | cons c cs ih =>
    simp only [takeRun, h c (List.mem_cons_self c cs), if_true]
    rw [ih (fun x hx => h x (List.mem_cons_of_mem c hx))]

/-- Env-map scanner on a braced token with a defined name: the value is
substituted, not rescanned, and scanning continues after the token. -/
theorem expandChars_braced_found (vars : List (String × String)) (nm after : List Char)
    (v : String) (fuel : Nat) (hnm : nm ≠ []) (hbr : ∀ c ∈ nm, c ≠ rbrace)
    (hget : getVar vars (String.mk nm) = some v) :
    expandChars vars (fuel + 1) ('$' :: lbrace :: (nm ++ rbrace :: after)) =
      v.data ++ expandChars vars fuel after := by
  match nm, hnm with
  | a :: as, _ =>
    have hs := splitAtBrace_append (a :: as) after hbr
    rw [List.cons_append] at hs
    simp [expandChars, hs, hget]

/-- Env-map scanner on a braced token with an undefined name: the token is
kept verbatim and scanning continues after it. -/
theorem expandChars_braced_missing (vars : List (String × String)) (nm after : List Char)
    (fuel : Nat) (hnm : nm ≠ []) (hbr : ∀ c ∈ nm, c ≠ rbrace)
    (hget : getVar vars (String.mk nm) = none) :
    expandChars vars (fuel + 1) ('$' :: lbrace :: (nm ++ rbrace :: after)) =
      '$' :: lbrace :: (nm ++ rbrace :: expandChars vars fuel after) := by
  match nm, hnm with
  | a :: as, _ =>
    have hs := splitAtBrace_append (a :: as) after hbr
    rw [List.cons_append] at hs
    simp [expandChars, hs, hget]

/-- Env-map scanner on an unbalanced braced token: nothing is substituted. -/
theorem expandChars_unclosed (vars : List (String × String)) (nm : List Char) (fuel : Nat)
    (hbr : ∀ c ∈ nm, c ≠ rbrace) (hnd : ∀ c ∈ nm, c ≠ '$') :
    expandChars vars (fuel + 1 + 1) ('$' :: lbrace :: nm) = '$' :: lbrace :: nm := by
  have h1 : splitAtBrace nm = none := splitAtBrace_none nm hbr
  have h2 := expandChars_no_dollar vars nm fuel hnd
  have hlb : ¬(lbrace = '$') := by decide
  simp [expandChars, h1, h2, hlb]

/-- Env-map scanner on `$` followed by a non-identifier, non-brace
character: no substitution is attempted. -/
theorem expandChars_nonident (vars : List (String × String)) (d : Char) (ds : List Char)
    (fuel : Nat) (hd1 : d ≠ lbrace) (hd2 : isIdentStart d = false) (hd3 : d ≠ '$')
    (hnd : ∀ c ∈ ds, c ≠ '$') :
    expandChars vars (fuel + 1) ('$' :: d :: ds) = '$' :: d :: ds := by
  have hall : ∀ c ∈ d :: ds, c ≠ '$' := by
    intro c hc
    rcases List.mem_cons.mp hc with h | h
    · rw [h]; exact hd3
    · exact hnd c h
  simp [expandChars, if_neg hd1, hd2, expandChars_no_dollar vars (d :: ds) fuel hall]

/-- Env-map scanner on an unbraced identifier token with a defined name. -/
theorem expandChars_ident_found (vars : List (String × String)) (a : Char) (as : List Char)
    (v : String) (fuel : Nat) (ha : isIdentStart a = true)
    (has : ∀ c ∈ as, isWordChar c = true)
    (hget : getVar vars (String.mk (a :: as)) = some v) :
    expandChars vars (fuel + 1) ('$' :: a :: as) = v.data := by
  have ha1 : ¬(a = lbrace) := by
    intro h
    rw [h] at ha
    exact absurd ha (by decide)
  have ht := takeRun_all isWordChar as has
  simp [expandChars, if_neg ha1, ha, ht, hget, expandChars_nil]

/-- Env-map scanner on an unbraced identifier token with an undefined
name: the token is left verbatim. -/
theorem expandChars_ident_missing (vars : List (String × String)) (a : Char) (as : List Char)
    (fuel : Nat) (ha : isIdentStart a = true) (has : ∀ c ∈ as, isWordChar c = true)
    (hget : getVar vars (String.mk (a :: as)) = none) :
    expandChars vars (fuel + 1) ('$' :: a :: as) = '$' :: a :: as := by
  have ha1 : ¬(a = lbrace) := by
    intro h
    rw [h] at ha
    exact absurd ha (by decide)
  have ht := takeRun_all isWordChar as has
  simp [expandChars, if_neg ha1, ha, ht, hget, expandChars_nil]

/-- Process-env scanner on a braced token with a defined name. -/
theorem expandVarsChars_braced_found (env : List (String × String)) (nm after : List Char)
    (v : String) (fuel : Nat) (hbr : ∀ c ∈ nm, c ≠ rbrace)
    (hget : getVar env (String.mk nm) = some v) :
    expandVarsChars env (fuel + 1) ('$' :: lbrace :: (nm ++ rbrace :: after)) =
      v.data ++ expandVarsChars env fuel after := by
  have hs := splitAtBrace_append nm after hbr
  simp [expandVarsChars, hs, hget]

/-- Process-env scanner on a braced token with an undefined name: the
token is kept verbatim. -/
theorem expandVarsChars_braced_missing (env : List (String × String)) (nm after : List Char)
    (fuel : Nat) (hbr : ∀ c ∈ nm, c ≠ rbrace)
    (hget : getVar env (String.mk nm) = none) :
    expandVarsChars env (fuel + 1) ('$' :: lbrace :: (nm ++ rbrace :: after)) =
      '$' :: lbrace :: (nm ++ rbrace :: expandVarsChars env fuel after) := by
  have hs := splitAtBrace_append nm after hbr
  simp [expandVarsChars, hs, hget]

/-- Character decomposition of a braced-token string. -/
theorem data_braced (nm tail : String) :
    ("$\x7b" ++ nm ++ "\x7d" ++ tail).data
      = '$' :: lbrace :: (nm.data ++ rbrace :: tail.data) := by
  have e1 : ("$\x7b" : String).data = ['$', lbrace] := rfl
  have e2 : ("\x7d" : String).data = [rbrace] := rfl
  simp [String.data_append, e1, e2]
  exact ⟨by decide, by decide⟩

/-- The env-map expander substitutes a defined braced name (any non-empty
brace-free name) and leaves a dollar-free remainder unchanged. -/
theorem expand_string_variables_braced_found (vars : List (String × String))
    (nm v tail : String) (hnm : nm ≠ "") (hbr : ∀ c ∈ nm.data, c ≠ rbrace)
    (htail : ∀ c ∈ tail.data, c ≠ '$') (hget : getVar vars nm = some v) :
    expand_string_variables ("$\x7b" ++ nm ++ "\x7d" ++ tail) vars = v ++ tail := by
  have hdata := data_braced nm tail
  have hnm' : nm.data ≠ [] := fun h => hnm (String.ext h)
  unfold expand_string_variables
  rw [hdata]
  have hlen : ('$' :: lbrace :: (nm.data ++ rbrace :: tail.data)).length
      = ((nm.data ++ rbrace :: tail.data).length + 1) + 1 := by
    simp only [List.length_cons]
  rw [hlen,
    expandChars_braced_found vars nm.data tail.data v
      ((nm.data ++ rbrace :: tail.data).length + 1) hnm' hbr hget,
    expandChars_no_dollar vars tail.data _ htail]
  exact String.ext (by simp [String.data_append])

/-- The env-map expander leaves a braced token with an undefined name
verbatim (no error), along with a dollar-free remainder. -/
theorem expand_string_variables_braced_missing (vars : List (String × String))
    (nm tail : String) (hnm : nm ≠ "") (hbr : ∀ c ∈ nm.data, c ≠ rbrace)
    (htail : ∀ c ∈ tail.data, c ≠ '$') (hget : getVar vars nm = none) :
    expand_string_variables ("$\x7b" ++ nm ++ "\x7d" ++ tail) vars
      = "$\x7b" ++ nm ++ "\x7d" ++ tail := by
  have hdata := data_braced nm tail
  have hnm' : nm.data ≠ [] := fun h => hnm (String.ext h)
  unfold expand_string_variables
  rw [hdata]
  have hlen : ('$' :: lbrace :: (nm.data ++ rbrace :: tail.data)).length
      = ((nm.data ++ rbrace :: tail.data).length + 1) + 1 := by
    simp only [List.length_cons]
  rw [hlen,
    expandChars_braced_missing vars nm.data tail.data
      ((nm.data ++ rbrace :: tail.data).length + 1) hnm' hbr hget,
    expandChars_no_dollar vars tail.data _ htail]
  exact String.ext hdata.symm

/-- The env-map expander passes an unbalanced braced token through
literally. -/
theorem expand_string_variables_unclosed (vars : List (String × String)) (nm : String)
    (hbr : ∀ c ∈ nm.data, c ≠ rbrace) (hnd : ∀ c ∈ nm.data, c ≠ '$') :
    expand_string_variables ("$\x7b" ++ nm) vars = "$\x7b" ++ nm := by
  have hdata : ("$\x7b" ++ nm).data = '$' :: lbrace :: nm.data := by
    have e1 : ("$\x7b" : String).data = ['$', lbrace] := rfl
    simp [String.data_append, e1]
    decide
  unfold expand_string_variables
  rw [hdata]
  have hlen : ('$' :: lbrace :: nm.data).length = (nm.data.length + 1) + 1 := by
    simp only [List.length_cons]
  rw [hlen]
  rw [show nm.data.length + 1 + 1 = nm.data.length + 1 + 1 from rfl,
    expandChars_unclosed vars nm.data nm.data.length hbr hnd]
  exact String.ext hdata.symm

/-- The env-map expander attempts no substitution at a dollar sign
followed by a character that starts neither token form. -/
theorem expand_string_variables_nonident (vars : List (String × String)) (tail : String)
    (d : Char) (ds : List Char) (htd : tail.data = d :: ds) (hd1 : d ≠ lbrace)
    (hd2 : isIdentStart d = false) (hd3 : d ≠ '$') (hnd : ∀ c ∈ ds, c ≠ '$') :
    expand_string_variables ("$" ++ tail) vars = "$" ++ tail := by
  have hdata : ("$" ++ tail).data = '$' :: d :: ds := by
    have e1 : ("$" : String).data = ['$'] := rfl
    simp [String.data_append, e1, htd]
  unfold expand_string_variables
  rw [hdata]
  have hlen : ('$' :: d :: ds).length = (ds.length + 1) + 1 := by
    simp only [List.length_cons]
  rw [hlen, expandChars_nonident vars d ds (ds.length + 1) hd1 hd2 hd3 hnd]
  exact String.ext hdata.symm

/-- The env-map expander substitutes a defined unbraced identifier token. -/
theorem expand_string_variables_ident_found (vars : List (String × String))
    (nm v : String) (a : Char) (as : List Char) (hda : nm.data = a :: as)
    (ha : isIdentStart a = true) (has : ∀ c ∈ as, isWordChar c = true)
    (hget : getVar vars nm = some v) :
    expand_string_variables ("$" ++ nm) vars = v := by
  have hdata : ("$" ++ nm).data = '$' :: a :: as := by
    have e1 : ("$" : String).data = ['$'] := rfl
    simp [String.data_append, e1, hda]
  have hg : getVar vars (String.mk (a :: as)) = some v := by
    rw [show String.mk (a :: as) = nm from by rw [← hda]]
    exact hget
  unfold expand_string_variables
  rw [hdata]
  have hlen : ('$' :: a :: as).length = (as.length + 1) + 1 := by
    simp only [List.length_cons]
  rw [hlen, expandChars_ident_found vars a as v (as.length + 1) ha has hg]

/-- The env-map expander leaves an unbraced identifier token with an
undefined name verbatim (no error). -/
theorem expand_string_variables_ident_missing (vars : List (String × String))
    (nm : String) (a : Char) (as : List Char) (hda : nm.data = a :: as)
    (ha : isIdentStart a = true) (has : ∀ c ∈ as, isWordChar c = true)
    (hget : getVar vars nm = none) :
    expand_string_variables ("$" ++ nm) vars = "$" ++ nm := by
  have hdata : ("$" ++ nm).data = '$' :: a :: as := by
    have e1 : ("$" : String).data = ['$'] := rfl
    simp [String.data_append, e1, hda]
  have hg : getVar vars (String.mk (a :: as)) = none := by
    rw [show String.mk (a :: as) = nm from by rw [← hda]]
    exact hget
  unfold expand_string_variables
  rw [hdata]
  have hlen : ('$' :: a :: as).length = (as.length + 1) + 1 := by
    simp only [List.length_cons]
  rw [hlen, expandChars_ident_missing vars a as (as.length + 1) ha has hg]
  exact String.ext hdata.symm

/-- The process-env expander substitutes a defined braced name and leaves
a dollar-free remainder unchanged. -/
theorem expandvars_braced_found (env : List (String × String)) (nm v tail : String)
    (hbr : ∀ c ∈ nm.data, c ≠ rbrace) (htail : ∀ c ∈ tail.data, c ≠ '$')
    (hget : getVar env nm = some v) :
    expandvars env ("$\x7b" ++ nm ++ "\x7d" ++ tail) = v ++ tail := by
  have hdata := data_braced nm tail
  unfold expandvars
  rw [hdata]
  have hlen : ('$' :: lbrace :: (nm.data ++ rbrace :: tail.data)).length
      = ((nm.data ++ rbrace :: tail.data).length + 1) + 1 := by
    simp only [List.length_cons]
  rw [hlen,
    expandVarsChars_braced_found env nm.data tail.data v
      ((nm.data ++ rbrace :: tail.data).length + 1) hbr hget,
    expandVarsChars_no_dollar env tail.data _ htail]
  exact String.ext (by simp [String.data_append])

/-- The process-env expander leaves a braced token with an undefined name
verbatim, along with a dollar-free remainder. -/
theorem expandvars_braced_missing (env : List (String × String)) (nm tail : String)
    (hbr : ∀ c ∈ nm.data, c ≠ rbrace) (htail : ∀ c ∈ tail.data, c ≠ '$')
    (hget : getVar env nm = none) :
    expandvars env ("$\x7b" ++ nm ++ "\x7d" ++ tail) = "$\x7b" ++ nm ++ "\x7d" ++ tail := by
  have hdata := data_braced nm tail
  unfold expandvars
  rw [hdata]
  have hlen : ('$' :: lbrace :: (nm.data ++ rbrace :: tail.data)).length
      = ((nm.data ++ rbrace :: tail.data).length + 1) + 1 := by
    simp only [List.length_cons]
  rw [hlen,
    expandVarsChars_braced_missing env nm.data tail.data
      ((nm.data ++ rbrace :: tail.data).length + 1) hbr hget,
    expandVarsChars_no_dollar env tail.data _ htail]
  exact String.ext hdata.symm

/-- A dollar-free string is left unchanged by `_expand_string_variables`. -/
theorem expand_string_variables_no_dollar (s : String) (vars : List (String × String))
    (h : ∀ c ∈ s.data, c ≠ '$') : expand_string_variables s vars = s := by
  unfold expand_string_variables
  rw [expandChars_no_dollar vars s.data _ h]

/-- A dollar-free string is left unchanged by `os.path.expandvars`. -/
theorem expandvars_no_dollar (env : List (String × String)) (s : String)
    (h : ∀ c ∈ s.data, c ≠ '$') : expandvars env s = s := by
  unfold expandvars
  rw [expandVarsChars_no_dollar env s.data _ h]

/-- Claim C9, counterexample.  The claim says substitution is attempted
only for names matching `[A-Za-z_][A-Za-z0-9_]*` and that other tokens
are left verbatim; on the code the braced pattern accepts any non-empty
brace-free name, so the token with the non-matching name `A-B` is
substituted (not left verbatim) when the variables map defines it. -/
theorem C9_counterexample :
    isIdentName "A-B" = false ∧
    expand_string_variables "$\x7bA-B\x7d" [("A-B", "v")] = "v" ∧
    ("v" : String) ≠ "$\x7bA-B\x7d" :=
  ⟨rfl, rfl, by decide⟩

/-- Claim C9, amended.  In `_expand_string_variables`, a braced token
substitutes for any non-empty brace-free name (also names outside
`[A-Za-z_][A-Za-z0-9_]*`), and a braced token with an undefined name is
left verbatim; an unbalanced braced token is passed through literally; an
unbraced token is recognised only when the character after the dollar
sign starts an identifier, and an unbraced identifier token with an
undefined name is left verbatim.  No case raises an error (the expander
is a total function). -/
theorem C9_amended (vars : List (String × String)) (nm tail : String)
    (hbr : ∀ c ∈ nm.data, c ≠ rbrace) (htail : ∀ c ∈ tail.data, c ≠ '$') :
    (∀ v : String, nm ≠ "" → getVar vars nm = some v →
      expand_string_variables ("$\x7b" ++ nm ++ "\x7d" ++ tail) vars = v ++ tail) ∧
    (nm ≠ "" → getVar vars nm = none →
      expand_string_variables ("$\x7b" ++ nm ++ "\x7d" ++ tail) vars
        = "$\x7b" ++ nm ++ "\x7d" ++ tail) ∧
    ((∀ c ∈ nm.data, c ≠ '$') →
      expand_string_variables ("$\x7b" ++ nm) vars = "$\x7b" ++ nm) ∧
    (∀ (d : Char) (ds : List Char), tail.data = d :: ds → d ≠ lbrace →
      isIdentStart d = false → d ≠ '$' →
      expand_string_variables ("$" ++ tail) vars = "$" ++ tail) ∧
    (∀ (a : Char) (as : List Char), nm.data = a :: as → isIdentStart a = true →
      (∀ c ∈ as, isWordChar c = true) → getVar vars nm = none →
      expand_string_variables ("$" ++ nm) vars = "$" ++ nm) := by
  refine ⟨?_, ?_, ?_, ?_, ?_⟩
  · intro v h1 h2
    exact expand_string_variables_braced_found vars nm v tail h1 hbr htail h2
  · intro h1 h2
    exact expand_string_variables_braced_missing vars nm tail h1 hbr htail h2
  · intro h
    exact expand_string_variables_unclosed vars nm hbr h
  · intro d ds h1 h2 h3 h4
    refine expand_string_variables_nonident vars tail d ds h1 h2 h3 h4 ?_
    intro c hc
    exact htail c (by rw [h1]; exact List.mem_cons_of_mem d hc)
  · intro a as h1 h2 h3 h4
    exact expand_string_variables_ident_missing vars nm a as h1 h2 h3 h4

/-- Claim C9, witness: the amended theorem applied at concrete inputs
covering all five cases. -/
theorem C9_amended_witness :
    expand_string_variables ("$\x7b" ++ "A-B" ++ "\x7d" ++ "/x") [("A-B", "v")]
      = "v" ++ "/x" ∧
    expand_string_variables ("$\x7b" ++ "NOPE" ++ "\x7d" ++ "/x") [("A-B", "v")]
      = "$\x7b" ++ "NOPE" ++ "\x7d" ++ "/x" ∧
    expand_string_variables ("$\x7b" ++ "A-B") [("A-B", "v")] = "$\x7b" ++ "A-B" ∧
    expand_string_variables ("$" ++ "1x") [("A-B", "v")] = "$" ++ "1x" ∧
    expand_string_variables ("$" ++ "HOME") [("A-B", "v")] = "$" ++ "HOME" :=
  ⟨(C9_amended [("A-B", "v")] "A-B" "/x" (by decide) (by decide)).1 "v" (by decide) rfl,
   (C9_amended [("A-B", "v")] "NOPE" "/x" (by decide) (by decide)).2.1 (by decide) rfl,
   (C9_amended [("A-B", "v")] "A-B" "/x" (by decide) (by decide)).2.2.1 (by decide),
   (C9_amended [("A-B", "v")] "A-B" "1x" (by decide) (by decide)).2.2.2.1 '1' ['x']
     rfl (by decide) (by decide) (by decide),
   (C9_amended [("A-B", "v")] "HOME" "/x" (by decide) (by decide)).2.2.2.2 'H'
     ['O', 'M', 'E'] rfl (by decide) (by decide) rfl⟩

/-- Claim C2, counterexample.  The claim says a name set both in the
process environment and in the descriptor's `env` map is resolved with
the `env` map's value in fields other than `env`; on the code, pass 1
(`os.path.expandvars`) substitutes the process environment's value first,
so with `HOME=/root` in the process environment and `HOME=/custom` in the
`env` map, the field `cwd = $\x7bHOME\x7d/x` resolves to `/root/x`, not
`/custom/x`. -/
theorem C2_counterexample :
    expand_env [("HOME", "/root")]
      (.obj (.cons "env" (.obj (.cons "HOME" (.str "/custom") .nil))
        (.cons "cwd" (.str "$\x7bHOME\x7d/x") .nil)))
    = .obj (.cons "env" (.obj (.cons "HOME" (.str "/custom") .nil))
        (.cons "cwd" (.str "/root/x") .nil)) ∧
    ("/root/x" : String) ≠ "/custom/x" :=
  ⟨rfl, by decide⟩

/-- Claim C2, amended.  For a descriptor with `env = \x7bHOME: /custom\x7d`
and `cwd = $\x7bHOME\x7d/x`: when `HOME` is set in the process
environment, pass 1 substitutes the process environment's value `W` into
`cwd` before the `env` map is consulted, so the process environment wins;
the `env` map's value is used only when `HOME` is not set in the process
environment. -/
theorem C2_amended (osEnv : List (String × String)) :
    (∀ W : String, getVar osEnv "HOME" = some W → (∀ c ∈ W.data, c ≠ '$') →
      expand_env osEnv
        (.obj (.cons "env" (.obj (.cons "HOME" (.str "/custom") .nil))
          (.cons "cwd" (.str ("$\x7b" ++ "HOME" ++ "\x7d" ++ "/x")) .nil)))
      = .obj (.cons "env" (.obj (.cons "HOME" (.str "/custom") .nil))
          (.cons "cwd" (.str (W ++ "/x")) .nil))) ∧
    (getVar osEnv "HOME" = none →
      expand_env osEnv
        (.obj (.cons "env" (.obj (.cons "HOME" (.str "/custom") .nil))
          (.cons "cwd" (.str ("$\x7b" ++ "HOME" ++ "\x7d" ++ "/x")) .nil)))
      = .obj (.cons "env" (.obj (.cons "HOME" (.str "/custom") .nil))
          (.cons "cwd" (.str ("/custom" ++ "/x")) .nil))) := by
  have h1 : expandvars osEnv "/custom" = "/custom" :=
    expandvars_no_dollar osEnv "/custom" (by decide)
  have hfix : envFixpoint 10 (JObj.cons "HOME" (JValue.str "/custom") .nil)
      = JObj.cons "HOME" (JValue.str "/custom") .nil := rfl
  have e2 : expand_env osEnv
      (.obj (.cons "env" (.obj (.cons "HOME" (.str "/custom") .nil))
        (.cons "cwd" (.str ("$\x7b" ++ "HOME" ++ "\x7d" ++ "/x")) .nil)))
    = .obj (finalizeFields
        (envFixpoint 10 (JObj.cons "HOME" (JValue.str (expandvars osEnv "/custom")) .nil))
        (JObj.cons "env"
          (JValue.obj (JObj.cons "HOME" (JValue.str (expandvars osEnv "/custom")) .nil))
          (JObj.cons "cwd"
            (JValue.str (expandvars osEnv ("$\x7b" ++ "HOME" ++ "\x7d" ++ "/x")))
            .nil))) := rfl
  constructor
  · intro W hW hWnd
    have h2 : expandvars osEnv ("$\x7b" ++ "HOME" ++ "\x7d" ++ "/x") = W ++ "/x" :=
      expandvars_braced_found osEnv "HOME" W "/x" (by decide) (by decide) hW
    have h3 : expand_string_variables (W ++ "/x") [("HOME", "/custom")] = W ++ "/x" := by
      apply expand_string_variables_no_dollar
      intro c hc
      rw [String.data_append] at hc
      rcases List.mem_append.mp hc with h | h
      · exact hWnd c h
      · have hcx : c = '/' ∨ c = 'x' := by simpa using h
        rcases hcx with h' | h' <;> rw [h'] <;> decide
    rw [e2, h1, h2, hfix]
    rw [show (finalizeFields (JObj.cons "HOME" (JValue.str "/custom") .nil)
          (JObj.cons "env" (JValue.obj (JObj.cons "HOME" (JValue.str "/custom") .nil))
            (JObj.cons "cwd" (JValue.str (W ++ "/x")) .nil)))
        = JObj.cons "env" (JValue.obj (JObj.cons "HOME" (JValue.str "/custom") .nil))
            (JObj.cons "cwd"
              (JValue.str (expand_string_variables (W ++ "/x") [("HOME", "/custom")]))
              .nil) from rfl, h3]
  · intro hW
    have h2 : expandvars osEnv ("$\x7b" ++ "HOME" ++ "\x7d" ++ "/x")
        = "$\x7b" ++ "HOME" ++ "\x7d" ++ "/x" :=
      expandvars_braced_missing osEnv "HOME" "/x" (by decide) (by decide) hW
    have h3 : expand_string_variables ("$\x7b" ++ "HOME" ++ "\x7d" ++ "/x")
        [("HOME", "/custom")] = "/custom" ++ "/x" :=
      expand_string_variables_braced_found [("HOME", "/custom")] "HOME" "/custom" "/x"
        (by decide) (by decide) (by decide) rfl
    rw [e2, h1, h2, hfix]
    rw [show (finalizeFields (JObj.cons "HOME" (JValue.str "/custom") .nil)
          (JObj.cons "env" (JValue.obj (JObj.cons "HOME" (JValue.str "/custom") .nil))
            (JObj.cons "cwd"
              (JValue.str ("$\x7b" ++ "HOME" ++ "\x7d" ++ "/x")) .nil)))
        = JObj.cons "env" (JValue.obj (JObj.cons "HOME" (JValue.str "/custom") .nil))
            (JObj.cons "cwd"
              (JValue.str (expand_string_variables
                ("$\x7b" ++ "HOME" ++ "\x7d" ++ "/x") [("HOME", "/custom")]))
              .nil) from rfl, h3]

/-- Claim C2, witness: the amended theorem applied with `HOME=/root` in
the process environment and with an empty process environment. -/
theorem C2_amended_witness :
    expand_env [("HOME", "/root")]
      (.obj (.cons "env" (.obj (.cons "HOME" (.str "/custom") .nil))
        (.cons "cwd" (.str ("$\x7b" ++ "HOME" ++ "\x7d" ++ "/x")) .nil)))
    = .obj (.cons "env" (.obj (.cons "HOME" (.str "/custom") .nil))
        (.cons "cwd" (.str ("/root" ++ "/x")) .nil)) ∧
    expand_env []
      (.obj (.cons "env" (.obj (.cons "HOME" (.str "/custom") .nil))
        (.cons "cwd" (.str ("$\x7b" ++ "HOME" ++ "\x7d" ++ "/x")) .nil)))
    = .obj (.cons "env" (.obj (.cons "HOME" (.str "/custom") .nil))
        (.cons "cwd" (.str ("/custom" ++ "/x")) .nil)) :=
  ⟨(C2_amended [("HOME", "/root")]).1 "/root" rfl (by decide),
   (C2_amended []).2 rfl⟩

mutual
/-- Variable substitution via `_expand_with_env_vars` preserves shape. -/
theorem shapeOf_expand_with_env_vars (vars : List (String × String)) :
    ∀ v : JValue, shapeOf (expand_with_env_vars vars v) = shapeOf v := by
  intro v
  match v with
  | .null => rfl
  | .bool b => rfl
  | .num n => rfl
  | .str s => rfl
  | .arr items =>
    simp [expand_with_env_vars, shapeOf, shapeOfA_expandWithA vars items]
  | .obj fields =>
    simp [expand_with_env_vars, shapeOf, shapeOfO_expandWithO vars fields]
/-- Array case of shape preservation of `_expand_with_env_vars`. -/
theorem shapeOfA_expandWithA (vars : List (String × String)) :
    ∀ a : JArr, shapeOfA (expandWithA vars a) = shapeOfA a := by
  intro a
  match a with
  | .nil => rfl
  | .cons h t =>
    simp [expandWithA, shapeOfA, shapeOf_expand_with_env_vars vars h,
      shapeOfA_expandWithA vars t]
/-- Object case of shape preservation of `_expand_with_env_vars`. -/
theorem shapeOfO_expandWithO (vars : List (String × String)) :
    ∀ o : JObj, shapeOfO (expandWithO vars o) = shapeOfO o := by
  intro o
  match o with
  | .nil => rfl
  | .cons k v t =>
    simp [expandWithO, shapeOfO, shapeOf_expand_with_env_vars vars v,
      shapeOfO_expandWithO vars t]
end

/-- One pass of the env fixed-point loop preserves shape. -/
theorem shapeOfO_envStep (e : JObj) : shapeOfO (envStep e) = shapeOfO e :=
  shapeOfO_expandWithO (stringPairs e) e

/-- The bounded env fixed-point loop preserves shape. -/
theorem shapeOfO_envFixpoint : ∀ (n : Nat) (e : JObj),
    shapeOfO (envFixpoint n e) = shapeOfO e := by
  intro n
  induction n with
  | zero => intro e; rfl
  | succ m ih =>
    intro e
    simp only [envFixpoint]
    by_cases h : beqO (envStep e) e = true
    · simp [h, shapeOfO_envStep]
    · simp only [h, if_false, Bool.false_eq_true]
      rw [ih (envStep e), shapeOfO_envStep]

/-- Step 4 of `_expand_env` preserves the shapes of the fields of an
object that has no `env` key. -/
theorem shapeOfO_finalize_noenv (resolved : JObj) :
    ∀ t : JObj, t.hasKey "env" = false →
      shapeOfO (finalizeFields resolved t) = shapeOfO t := by
  intro t
  match t with
  | .nil => intro _; rfl
  | .cons k v t' =>
    intro h
    simp only [JObj.hasKey] at h
    by_cases hk : k = "env"
    · rw [if_pos hk] at h
      cases h
    · rw [if_neg hk] at h
      simp [finalizeFields, hk, shapeOfO, shapeOf_expand_with_env_vars,
        shapeOfO_finalize_noenv resolved t' h]

/-- Step 4 of `_expand_env` preserves the shapes of the fields of a
duplicate-free object whose `env` field is a dict, provided the resolved
env has the shape of that dict. -/
theorem shapeOfO_finalize (resolved envFields : JObj)
    (hres : shapeOfO resolved = shapeOfO envFields) :
    ∀ o : JObj, keysUnique o = true → o.get "env" = some (.obj envFields) →
      shapeOfO (finalizeFields resolved o) = shapeOfO o := by
  intro o
  match o with
  | .nil => intro _ hget; simp [JObj.get] at hget
  | .cons k v t =>
    intro hu hget
    simp only [keysUnique, Bool.and_eq_true] at hu
    simp only [JObj.get] at hget
    by_cases hk : k = "env"
    · rw [if_pos hk] at hget
      have hv : v = .obj envFields := by
        injection hget
      have ht : t.hasKey "env" = false := by
        rw [← hk]
        simpa using hu.1
      simp [finalizeFields, hk, shapeOfO, hv, shapeOf,
        shapeOfO_finalize_noenv resolved t ht, hres]
    · rw [if_neg hk] at hget
      simp [finalizeFields, hk, shapeOfO, shapeOf_expand_with_env_vars,
        shapeOfO_finalize resolved envFields hres t hu.2 hget]

/-- Step 1 of `_expand_env` does not change which keys an object has. -/
theorem hasKey_expandEnvO (osEnv : List (String × String)) :
    ∀ (o : JObj) (k : String), (expandEnvO osEnv o).hasKey k = o.hasKey k := by
  intro o
  match o with
  | .nil => intro k; rfl
  | .cons k' v t =>
    intro k
    simp [expandEnvO, JObj.hasKey, hasKey_expandEnvO osEnv t k]

/-- Step 1 of `_expand_env` preserves key uniqueness. -/
theorem keysUnique_expandEnvO (osEnv : List (String × String)) :
    ∀ o : JObj, keysUnique (expandEnvO osEnv o) = keysUnique o := by
  intro o
  match o with
  | .nil => rfl
  | .cons k v t =>
    simp [expandEnvO, keysUnique, hasKey_expandEnvO osEnv t k,
      keysUnique_expandEnvO osEnv t]

mutual
/-- Full `_expand_env` preserves shape on values all of whose nested
objects are duplicate-free (every `json.loads` output is). -/
theorem shapeOf_expand_env (osEnv : List (String × String)) :
    ∀ v : JValue, noDupV v = true → shapeOf (expand_env osEnv v) = shapeOf v := by
  intro v hv
  match v with
  | .null => rfl
  | .bool b => rfl
  | .num n => rfl
  | .str s => rfl
  | .arr items =>
    simp only [noDupV] at hv
    simp [expand_env, shapeOf, shapeOfA_expandEnvA osEnv items hv]
  | .obj fields =>
    simp only [noDupV, Bool.and_eq_true] at hv
    have hshape : shapeOfO (expandEnvO osEnv fields) = shapeOfO fields :=
      shapeOfO_expandEnvO osEnv fields hv.2
    have hexp : keysUnique (expandEnvO osEnv fields) = true := by
      rw [keysUnique_expandEnvO osEnv fields]
      exact hv.1
    simp only [expand_env]
    cases hg : (expandEnvO osEnv fields).get "env" with
    | none => simp [shapeOf, hshape]
    | some gv =>
      cases gv with
      | obj envFields =>
        simp only [shapeOf]
        rw [shapeOfO_finalize (envFixpoint 10 envFields) envFields
          (shapeOfO_envFixpoint 10 envFields) (expandEnvO osEnv fields) hexp hg]
        rw [hshape]
      | null => simp [shapeOf, hshape]
      | bool b => simp [shapeOf, hshape]
      | num n => simp [shapeOf, hshape]
      | str s => simp [shapeOf, hshape]
      | arr a => simp [shapeOf, hshape]
/-- Array case of shape preservation of `_expand_env`. -/
theorem shapeOfA_expandEnvA (osEnv : List (String × String)) :
    ∀ a : JArr, noDupA a = true → shapeOfA (expandEnvA osEnv a) = shapeOfA a := by
  intro a ha
  match a with
  | .nil => rfl
  | .cons h t =>
    simp only [noDupA, Bool.and_eq_true] at ha
    simp [expandEnvA, shapeOfA, shapeOf_expand_env osEnv h ha.1,
      shapeOfA_expandEnvA osEnv t ha.2]
/-- Step-1 object case of shape preservation of `_expand_env`. -/
theorem shapeOfO_expandEnvO (osEnv : List (String × String)) :
    ∀ o : JObj, noDupO o = true → shapeOfO (expandEnvO osEnv o) = shapeOfO o := by
  intro o ho
  match o with
  | .nil => rfl
  | .cons k v t =>
    simp only [noDupO, Bool.and_eq_true] at ho
    simp [expandEnvO, shapeOfO, shapeOf_expand_env osEnv v ho.1,
      shapeOfO_expandEnvO osEnv t ho.2]
end

/-- A name bound to a string in the raw dict is bound to the same string
in its string-valued projection. -/
theorem stringPairs_get_str :
    ∀ (vars : JObj) (name s : String), vars.get name = some (.str s) →
      getVar (stringPairs vars) name = some s := by
  intro vars
  match vars with
  | .nil => intro name s h; simp [JObj.get] at h
  | .cons k v t =>
    intro name s h
    simp only [JObj.get] at h
    by_cases hk : k = name
    · rw [if_pos hk] at h
      have hv : v = .str s := by injection h
      subst hv
      simp [stringPairs, getVar, hk]
    · rw [if_neg hk] at h
      have ih := stringPairs_get_str t name s h
      cases v with
      | str s' => simp [stringPairs, getVar, hk, ih]
      | null => simp [stringPairs, ih]
      | bool b => simp [stringPairs, ih]
      | num n => simp [stringPairs, ih]
      | arr a => simp [stringPairs, ih]
      | obj o => simp [stringPairs, ih]

/-- A name absent from the raw dict is absent from its string-valued
projection. -/
theorem stringPairs_get_none :
    ∀ (vars : JObj) (name : String), vars.get name = none →
      getVar (stringPairs vars) name = none := by
  intro vars
  match vars with
  | .nil => intro name _; rfl
  | .cons k v t =>
    intro name h
    simp only [JObj.get] at h
    by_cases hk : k = name
    · rw [if_pos hk] at h
      cases h
    · rw [if_neg hk] at h
      have ih := stringPairs_get_none t name h
      cases v with
      | str s' => simp [stringPairs, getVar, hk, ih]
      | null => simp [stringPairs, ih]
      | bool b => simp [stringPairs, ih]
      | num n => simp [stringPairs, ih]
      | arr a => simp [stringPairs, ih]
      | obj o => simp [stringPairs, ih]

/-- When the raw-dict scanner succeeds (no referenced token hits a
non-string value), it computes exactly what the string-projection
scanner computes. -/
theorem expandCharsJ_ok (vars : JObj) :
    ∀ (fuel : Nat) (l r : List Char), expandCharsJ vars fuel l = .ok r →
      expandChars (stringPairs vars) fuel l = r := by
  intro fuel
  induction fuel with
  | zero =>
    intro l r h
    simp only [expandCharsJ, Except.ok.injEq] at h
    subst h
    rfl
  | succ f ih =>
    intro l r h
    match l with
    | [] =>
      simp only [expandCharsJ, Except.ok.injEq] at h
      subst h
      rfl
    | c :: rest =>
      by_cases hc : c = '$'
      case neg =>
        simp only [expandCharsJ, if_neg hc] at h
        cases hrec : expandCharsJ vars f rest with
        | error e => rw [hrec] at h; cases h
        | ok r' =>
          rw [hrec] at h
          simp only [Except.ok.injEq] at h
          subst h
          simp [expandChars, if_neg hc, ih rest r' hrec]
      case pos =>
        subst hc
        match rest with
        | [] =>
          simp [expandCharsJ] at h
          subst h
          rfl
        | d :: cs =>
          by_cases hd : d = lbrace
          · subst hd
            cases hs : splitAtBrace cs with
            | none =>
              simp [expandCharsJ, hs] at h
              cases hrec : expandCharsJ vars f (lbrace :: cs) with
              | error e => rw [hrec] at h; cases h
              | ok r' =>
                rw [hrec] at h
                simp only [Except.ok.injEq] at h
                subst h
                simp [expandChars, hs, ih (lbrace :: cs) r' hrec]
            | some p =>
              match p with
              | (nm, after) =>
                by_cases hnm : nm.isEmpty
                · simp [expandCharsJ, hs, hnm] at h
                  cases hrec : expandCharsJ vars f (lbrace :: cs) with
                  | error e => rw [hrec] at h; cases h
                  | ok r' =>
                    rw [hrec] at h
                    simp only [Except.ok.injEq] at h
                    subst h
                    simp [expandChars, hs, hnm, ih (lbrace :: cs) r' hrec]
                · cases hg : vars.get (String.mk nm) with
                  | none =>
                    simp [expandCharsJ, hs, hnm, hg] at h
                    cases hrec : expandCharsJ vars f after with
                    | error e => rw [hrec] at h; cases h
                    | ok r' =>
                      rw [hrec] at h
                      simp only [Except.ok.injEq] at h
                      subst h
                      simp [expandChars, hs, hnm, stringPairs_get_none vars _ hg,
                        ih after r' hrec]
                  | some v =>
                    cases v with
                    | str s =>
                      simp [expandCharsJ, hs, hnm, hg] at h
                      cases hrec : expandCharsJ vars f after with
                      | error e => rw [hrec] at h; cases h
                      | ok r' =>
                        rw [hrec] at h
                        simp only [Except.ok.injEq] at h
                        subst h
                        simp [expandChars, hs, hnm, stringPairs_get_str vars _ s hg,
                          ih after r' hrec]
                    | null => simp [expandCharsJ, hs, hnm, hg] at h
                    | bool b => simp [expandCharsJ, hs, hnm, hg] at h
                    | num n => simp [expandCharsJ, hs, hnm, hg] at h
                    | arr a => simp [expandCharsJ, hs, hnm, hg] at h
                    | obj o => simp [expandCharsJ, hs, hnm, hg] at h
          · by_cases hi : isIdentStart d
            · cases hg : vars.get (String.mk (d :: (takeRun isWordChar cs).1)) with
              | none =>
                simp [expandCharsJ, if_neg hd, hi, hg] at h
                cases hrec : expandCharsJ vars f (takeRun isWordChar cs).2 with
                | error e => rw [hrec] at h; cases h
                | ok r' =>
                  rw [hrec] at h
                  simp only [Except.ok.injEq] at h
                  subst h
                  simp [expandChars, if_neg hd, hi, stringPairs_get_none vars _ hg,
                    ih (takeRun isWordChar cs).2 r' hrec]
              | some v =>
                cases v with
                | str s =>
                  simp [expandCharsJ, if_neg hd, hi, hg] at h
                  cases hrec : expandCharsJ vars f (takeRun isWordChar cs).2 with
                  | error e => rw [hrec] at h; cases h
                  | ok r' =>
                    rw [hrec] at h
                    simp only [Except.ok.injEq] at h
                    subst h
                    simp [expandChars, if_neg hd, hi, stringPairs_get_str vars _ s hg,
                      ih (takeRun isWordChar cs).2 r' hrec]
                | null => simp [expandCharsJ, if_neg hd, hi, hg] at h
                | bool b => simp [expandCharsJ, if_neg hd, hi, hg] at h
                | num n => simp [expandCharsJ, if_neg hd, hi, hg] at h
                | arr a => simp [expandCharsJ, if_neg hd, hi, hg] at h
                | obj o => simp [expandCharsJ, if_neg hd, hi, hg] at h
            · simp [expandCharsJ, if_neg hd, hi] at h
              cases hrec : expandCharsJ vars f (d :: cs) with
              | error e => rw [hrec] at h; cases h
              | ok r' =>
                rw [hrec] at h
                simp only [Except.ok.injEq] at h
                subst h
                simp [expandChars, if_neg hd, hi, ih (d :: cs) r' hrec]

/-- When `_expand_string_variables` on the raw dict succeeds, it computes
what the string-projection version computes. -/
theorem expand_string_variablesJ_ok (vars : JObj) (s r : String)
    (h : expand_string_variablesJ s vars = .ok r) :
    expand_string_variables s (stringPairs vars) = r := by
  simp only [expand_string_variablesJ] at h
  cases hc : expandCharsJ vars s.data.length s.data with
  | error e => rw [hc] at h; cases h
  | ok l =>
    rw [hc] at h
    simp only [Except.ok.injEq] at h
    subst h
    unfold expand_string_variables
    rw [expandCharsJ_ok vars s.data.length s.data l hc]

mutual
/-- When the fallible `_expand_with_env_vars` succeeds, it computes what
the total string-projection version computes. -/
theorem expand_with_env_varsE_ok (vars : JObj) :
    ∀ (v r : JValue), expand_with_env_varsE vars v = .ok r →
      expand_with_env_vars (stringPairs vars) v = r := by
  intro v r h
  match v with
  | .null => simp [expand_with_env_varsE] at h; subst h; rfl
  | .bool b => simp [expand_with_env_varsE] at h; subst h; rfl
  | .num n => simp [expand_with_env_varsE] at h; subst h; rfl
  | .str s =>
    simp only [expand_with_env_varsE] at h
    cases hs : expand_string_variablesJ s vars with
    | error e => rw [hs] at h; cases h
    | ok s' =>
      rw [hs] at h
      simp only [Except.ok.injEq] at h
      subst h
      simp [expand_with_env_vars, expand_string_variablesJ_ok vars s s' hs]
  | .arr items =>
    simp only [expand_with_env_varsE] at h
    cases ha : expandWithAE vars items with
    | error e => rw [ha] at h; cases h
    | ok a =>
      rw [ha] at h
      simp only [Except.ok.injEq] at h
      subst h
      simp [expand_with_env_vars, expandWithAE_ok vars items a ha]
  | .obj fields =>
    simp only [expand_with_env_varsE] at h
    cases ho : expandWithOE vars fields with
    | error e => rw [ho] at h; cases h
    | ok o =>
      rw [ho] at h
      simp only [Except.ok.injEq] at h
      subst h
      simp [expand_with_env_vars, expandWithOE_ok vars fields o ho]
/-- List case of the success correspondence. -/
theorem expandWithAE_ok (vars : JObj) :
    ∀ (a : JArr) (r : JArr), expandWithAE vars a = .ok r →
      expandWithA (stringPairs vars) a = r := by
  intro a r h
  match a with
  | .nil => simp [expandWithAE] at h; subst h; rfl
  | .cons hd t =>
    simp only [expandWithAE] at h
    cases hh : expand_with_env_varsE vars hd with
    | error e => rw [hh] at h; cases h
    | ok h' =>
      rw [hh] at h
      cases ht : expandWithAE vars t with
      | error e => rw [ht] at h; cases h
      | ok t' =>
        rw [ht] at h
        simp only [Except.ok.injEq] at h
        subst h
        simp [expandWithA, expand_with_env_varsE_ok vars hd h' hh,
          expandWithAE_ok vars t t' ht]
/-- Dict case of the success correspondence. -/
theorem expandWithOE_ok (vars : JObj) :
    ∀ (o : JObj) (r : JObj), expandWithOE vars o = .ok r →
      expandWithO (stringPairs vars) o = r := by
  intro o r h
  match o with
  | .nil => simp [expandWithOE] at h; subst h; rfl
  | .cons k v t =>
    simp only [expandWithOE] at h
    cases hv : expand_with_env_varsE vars v with
    | error e => rw [hv] at h; cases h
    | ok v' =>
      rw [hv] at h
      cases ht : expandWithOE vars t with
      | error e => rw [ht] at h; cases h
      | ok t' =>
        rw [ht] at h
        simp only [Except.ok.injEq] at h
        subst h
        simp [expandWithO, expand_with_env_varsE_ok vars v v' hv,
          expandWithOE_ok vars t t' ht]
end

/-- When a pass of the env loop raises nothing, it computes the total
model's pass. -/
theorem envStepE_ok (e e' : JObj) (h : envStepE e = .ok e') : envStep e = e' :=
  expandWithOE_ok e e e' h

/-- When the bounded env loop raises nothing, it computes the total
model's loop. -/
theorem envFixpointE_ok : ∀ (n : Nat) (e r : JObj),
    envFixpointE n e = .ok r → envFixpoint n e = r := by
  intro n
  induction n with
  | zero =>
    intro e r h
    simp only [envFixpointE, Except.ok.injEq] at h
    subst h
    rfl
  | succ m ih =>
    intro e r h
    simp only [envFixpointE] at h
    cases hstep : envStepE e with
    | error err => rw [hstep] at h; cases h
    | ok e' =>
      simp only [hstep] at h
      have he' : envStep e = e' := envStepE_ok e e' hstep
      by_cases hb : beqO e' e = true
      · rw [if_pos hb] at h
        simp only [Except.ok.injEq] at h
        subst h
        simp [envFixpoint, he', hb]
      · rw [if_neg hb] at h
        simp [envFixpoint, he', hb, ih e' r h]

/-- When step 4 raises nothing, it computes the total model's step 4. -/
theorem finalizeFieldsE_ok (resolved : JObj) :
    ∀ (o r : JObj), finalizeFieldsE resolved o = .ok r →
      finalizeFields resolved o = r := by
  intro o r h
  match o with
  | .nil => simp [finalizeFieldsE] at h; subst h; rfl
  | .cons k v t =>
    simp only [finalizeFieldsE] at h
    by_cases hk : k = "env"
    · rw [if_pos hk] at h
      cases ht : finalizeFieldsE resolved t with
      | error e => rw [ht] at h; cases h
      | ok t' =>
        rw [ht] at h
        simp only [Except.ok.injEq] at h
        subst h
        simp [finalizeFields, hk, finalizeFieldsE_ok resolved t t' ht]
    · rw [if_neg hk] at h
      cases hv : expand_with_env_varsE resolved v with
      | error e => rw [hv] at h; cases h
      | ok v' =>
        rw [hv] at h
        cases ht : finalizeFieldsE resolved t with
        | error e => rw [ht] at h; cases h
        | ok t' =>
          rw [ht] at h
          simp only [Except.ok.injEq] at h
          subst h
          simp [finalizeFields, hk, expand_with_env_varsE_ok resolved v v' hv,
            finalizeFieldsE_ok resolved t t' ht]

mutual
/-- When the faithful `_expand_env` raises no `TypeError`, it computes
exactly what the total pipeline model computes: the two models agree on
every non-raising input. -/
theorem expand_envE_ok (osEnv : List (String × String)) :
    ∀ (v r : JValue), expand_envE osEnv v = .ok r → expand_env osEnv v = r := by
  intro v r h
  match v with
  | .null => simp [expand_envE] at h; subst h; rfl
  | .bool b => simp [expand_envE] at h; subst h; rfl
  | .num n => simp [expand_envE] at h; subst h; rfl
  | .str s => simp [expand_envE] at h; subst h; rfl
  | .arr items =>
    simp only [expand_envE] at h
    cases ha : expandEnvAE osEnv items with
    | error e => rw [ha] at h; cases h
    | ok a =>
      rw [ha] at h
      simp only [Except.ok.injEq] at h
      subst h
      simp [expand_env, expandEnvAE_ok osEnv items a ha]
  | .obj fields =>
    simp only [expand_envE] at h
    cases ho : expandEnvOE osEnv fields with
    | error e => rw [ho] at h; cases h
    | ok expanded =>
      simp only [ho] at h
      have hexpanded : expandEnvO osEnv fields = expanded :=
        expandEnvOE_ok osEnv fields expanded ho
      simp only [expand_env, hexpanded]
      cases hg : expanded.get "env" with
      | none =>
        simp only [hg] at h
        simp only [Except.ok.injEq] at h
        subst h
        rfl
      | some gv =>
        simp only [hg] at h
        cases gv with
        | obj envFields =>
          cases hfix : envFixpointE 10 envFields with
          | error e => simp only [hfix] at h; cases h
          | ok resolved =>
            simp only [hfix] at h
            cases hfin : finalizeFieldsE resolved expanded with
            | error e => simp only [hfin] at h; cases h
            | ok fin =>
              simp only [hfin] at h
              simp only [Except.ok.injEq] at h
              subst h
              simp [envFixpointE_ok 10 envFields resolved hfix,
                finalizeFieldsE_ok resolved expanded fin hfin]
        | null => simp only [Except.ok.injEq] at h; subst h; rfl
        | bool b => simp only [Except.ok.injEq] at h; subst h; rfl
        | num n => simp only [Except.ok.injEq] at h; subst h; rfl
        | str s => simp only [Except.ok.injEq] at h; subst h; rfl
        | arr a => simp only [Except.ok.injEq] at h; subst h; rfl
/-- List case of the non-raising agreement. -/
theorem expandEnvAE_ok (osEnv : List (String × String)) :
    ∀ (a : JArr) (r : JArr), expandEnvAE osEnv a = .ok r →
      expandEnvA osEnv a = r := by
  intro a r h
  match a with
  | .nil => simp [expandEnvAE] at h; subst h; rfl
  | .cons hd t =>
    simp only [expandEnvAE] at h
    cases hh : expand_envE osEnv hd with
    | error e => rw [hh] at h; cases h
    | ok h' =>
      rw [hh] at h
      cases ht : expandEnvAE osEnv t with
      | error e => rw [ht] at h; cases h
      | ok t' =>
        rw [ht] at h
        simp only [Except.ok.injEq] at h
        subst h
        simp [expandEnvA, expand_envE_ok osEnv hd h' hh, expandEnvAE_ok osEnv t t' ht]
/-- Step-1 dict case of the non-raising agreement. -/
theorem expandEnvOE_ok (osEnv : List (String × String)) :
    ∀ (o : JObj) (r : JObj), expandEnvOE osEnv o = .ok r →
      expandEnvO osEnv o = r := by
  intro o r h
  match o with
  | .nil => simp [expandEnvOE] at h; subst h; rfl
  | .cons k v t =>
    simp only [expandEnvOE] at h
    cases hv : expand_envE osEnv v with
    | error e => rw [hv] at h; cases h
    | ok v' =>
      rw [hv] at h
      cases ht : expandEnvOE osEnv t with
      | error e => rw [ht] at h; cases h
      | ok t' =>
        rw [ht] at h
        simp only [Except.ok.injEq] at h
        subst h
        simp [expandEnvO, expand_envE_ok osEnv v v' hv, expandEnvOE_ok osEnv t t' ht]
end

/-- Claim C10, counterexample.  The claim says expansion preserves
structure for every value; on the code, a descriptor that passes
validation in full (`env` need only be a dict — its value types are
unchecked) but whose `cwd` references the non-string env value `N = 5`
makes `_expand_env` raise `TypeError` inside `re.sub` (the replacement
function returns the int), so expansion returns no result at all for
this value. -/
theorem C10_counterexample :
    validate_server_type_and_connection "s"
      (.cons "command" (.str "c")
        (.cons "env" (.obj (.cons "N" (.num 5) .nil))
          (.cons "cwd" (.str "$\x7bN\x7d") .nil))) = .ok none ∧
    validate_optional_fields "s"
      (.cons "command" (.str "c")
        (.cons "env" (.obj (.cons "N" (.num 5) .nil))
          (.cons "cwd" (.str "$\x7bN\x7d") .nil))) = .ok () ∧
    expand_envE []
      (.obj (.cons "command" (.str "c")
        (.cons "env" (.obj (.cons "N" (.num 5) .nil))
          (.cons "cwd" (.str "$\x7bN\x7d") .nil))))
      = .error .typeError :=
  ⟨rfl, rfl, rfl⟩

/-- Claim C10, amended.  Variable expansion preserves the structure of
every value it returns: `_expand_with_env_vars` over a string-to-string
variable source always, and `_expand_env` on every execution that does
not raise (it raises `TypeError`, returning nothing, exactly when a
substituted token references a non-string `env` value).  On all
non-raising inputs whose nested objects are duplicate-free (every
`json.loads` output is), the result has the same keys in the same order
in every object, the same length in every sequence, and every non-string
scalar leaf unchanged. -/
theorem C10_structure_amended :
    (∀ (vars : List (String × String)) (v : JValue),
      shapeOf (expand_with_env_vars vars v) = shapeOf v) ∧
    (∀ (osEnv : List (String × String)) (v r : JValue), noDupV v = true →
      expand_envE osEnv v = .ok r → shapeOf r = shapeOf v) := by
  constructor
  · exact fun vars v => shapeOf_expand_with_env_vars vars v
  · intro osEnv v r hnd hok
    rw [← expand_envE_ok osEnv v r hok]
    exact shapeOf_expand_env osEnv v hnd

/-- Claim C10, witness: the amended theorem applied at a concrete
substitution and at a concrete non-raising run of the faithful
`_expand_env` (with an `env` cross-reference and a non-string leaf). -/
theorem C10_structure_amended_witness :
    shapeOf (expand_with_env_vars [("A", "1")]
      (.obj (.cons "cmd" (.str "$\x7bA\x7d") (.cons "n" (.num 3) .nil))))
      = shapeOf (.obj (.cons "cmd" (.str "$\x7bA\x7d") (.cons "n" (.num 3) .nil))) ∧
    shapeOf (.obj (.cons "env" (.obj (.cons "A" (.str "1") .nil))
        (.cons "cwd" (.str "1/x") (.cons "n" (.num 3) .nil))))
      = shapeOf (.obj (.cons "env" (.obj (.cons "A" (.str "1") .nil))
        (.cons "cwd" (.str "$\x7bA\x7d/x") (.cons "n" (.num 3) .nil)))) :=
  ⟨C10_structure_amended.1 [("A", "1")]
      (.obj (.cons "cmd" (.str "$\x7bA\x7d") (.cons "n" (.num 3) .nil))),
   C10_structure_amended.2 []
      (.obj (.cons "env" (.obj (.cons "A" (.str "1") .nil))
        (.cons "cwd" (.str "$\x7bA\x7d/x") (.cons "n" (.num 3) .nil))))
      (.obj (.cons "env" (.obj (.cons "A" (.str "1") .nil))
        (.cons "cwd" (.str "1/x") (.cons "n" (.num 3) .nil))))
      (by decide) rfl⟩
